import Mathlib

/-!
Verification of the ZekaEngine compiler/runtime pair (repository
`ajiang-xyz/ZekaEngine`).  The Rust sources under `zeka_crypto`,
`zeka_config` and `zeka_engine` are embedded shallowly: rug `Integer`
values become `ℤ` (or `ℕ` where the code only ever handles non-negative
values), rug's Euclidean `modulo` becomes `Int.emod` (`%` on `ℤ`), and the
imperative loops become folds.  Each definition carries a comment naming
the Rust function it translates.
-/

namespace Zeka

/-! ### Library primitives

rug's `Integer::invert` and `significant_bits` are library calls (GMP).
They are reimplemented here executably: `egcd` is the extended Euclidean
algorithm with an explicit fuel argument (so that it evaluates inside the
kernel), and `sig_bits` is the bit length.  Both are characterised by the
lemmas that follow, which is all the embedding relies on.
-/

/-- Extended Euclidean algorithm: `egcd fuel a b = (x, y, g)` with
`a*x + b*y = g = gcd a b`, provided `b ≤ fuel`. -/
def egcd : ℕ → ℕ → ℕ → ℤ × ℤ × ℕ
  | 0, a, _ => (1, 0, a)
  | fuel + 1, a, b =>
    if b = 0 then (1, 0, a)
    else
      let q := a / b
      let r := a % b
      let v := egcd fuel b r
      (v.2.1, v.1 - q * v.2.1, v.2.2)

theorem egcd_bezout : ∀ (fuel a b : ℕ), b ≤ fuel →
    (a : ℤ) * (egcd fuel a b).1 + (b : ℤ) * (egcd fuel a b).2.1 = ((egcd fuel a b).2.2 : ℤ)
      ∧ (egcd fuel a b).2.2 = Nat.gcd a b := by
  intro fuel
  induction fuel with
  | zero =>
    intro a b hb
    interval_cases b
    simp [egcd, Nat.gcd_zero_right]
  | succ f ih =>
    intro a b hb
    by_cases h : b = 0
    · subst h; simp [egcd, Nat.gcd_zero_right]
    · have hrec := ih b (a % b) (by
        have : a % b < b := Nat.mod_lt a (Nat.pos_of_ne_zero h)
        omega)
      simp only [egcd, h, if_neg, not_false_iff, if_false]
      constructor
      · have hb' : (b : ℤ) * (egcd f b (a % b)).1 + ((a % b : ℕ) : ℤ) * (egcd f b (a % b)).2.1
            = ((egcd f b (a % b)).2.2 : ℤ) := hrec.1
        have hnat : (b : ℤ) * ((a / b : ℕ) : ℤ) + ((a % b : ℕ) : ℤ) = (a : ℤ) := by
          exact_mod_cast congrArg (Nat.cast : ℕ → ℤ) (Nat.div_add_mod a b)
        have hmod : ((a % b : ℕ) : ℤ) = (a : ℤ) - ((a / b : ℕ) : ℤ) * (b : ℤ) := by
          linarith
        rw [hmod] at hb'
        ring_nf
        ring_nf at hb'
        linarith [hb']
      · rw [hrec.2]
        rw [Nat.gcd_comm b (a % b), ← Nat.gcd_rec b a, Nat.gcd_comm b a]

/-- rug `Integer::invert(p)`: the modular inverse in `[0, p)` when
`gcd(a, p) = 1`, `None` otherwise.  Modelled for the non-negative
arguments the code uses. -/
def invert (a p : ℤ) : Option ℤ :=
  if (egcd (p.toNat + 1) a.toNat p.toNat).2.2 = 1 then
    some ((egcd (p.toNat + 1) a.toNat p.toNat).1 % p)
  else none

theorem invert_eq_some_of_gcd (a p : ℤ) (h : Nat.gcd a.toNat p.toNat = 1) :
    invert a p = some ((egcd (p.toNat + 1) a.toNat p.toNat).1 % p) := by
  have hg := (egcd_bezout (p.toNat + 1) a.toNat p.toNat (by omega)).2
  rw [invert, if_pos (hg.trans h)]

theorem invert_spec (a p c : ℤ) (ha : 0 ≤ a) (hp : 0 < p)
    (h : invert a p = some c) : (a * c) % p = 1 % p ∧ 0 ≤ c ∧ c < p := by
  rw [invert] at h
  by_cases hg : (egcd (p.toNat + 1) a.toNat p.toNat).2.2 = 1
  · rw [if_pos hg, Option.some_inj] at h
    have hbz := egcd_bezout (p.toNat + 1) a.toNat p.toNat (by omega)
    have h1 : (a.toNat : ℤ) * (egcd (p.toNat + 1) a.toNat p.toNat).1
        + (p.toNat : ℤ) * (egcd (p.toNat + 1) a.toNat p.toNat).2.1
        = ((egcd (p.toNat + 1) a.toNat p.toNat).2.2 : ℤ) := hbz.1
    have ha' : (a.toNat : ℤ) = a := Int.toNat_of_nonneg ha
    have hp' : (p.toNat : ℤ) = p := Int.toNat_of_nonneg (le_of_lt hp)
    rw [ha', hp', hg] at h1
    refine ⟨?_, ?_, ?_⟩
    · rw [← h]
      have hmm : a * ((egcd (p.toNat + 1) a.toNat p.toNat).1 % p) % p
          = a * (egcd (p.toNat + 1) a.toNat p.toNat).1 % p := by
        rw [Int.mul_emod, Int.emod_emod_of_dvd _ dvd_rfl, ← Int.mul_emod]
      rw [hmm]
      have hlin : a * (egcd (p.toNat + 1) a.toNat p.toNat).1
          = 1 - p * (egcd (p.toNat + 1) a.toNat p.toNat).2.1 := by
        push_cast at h1
        linarith
      rw [hlin]
      simp [Int.sub_emod, Int.mul_emod_right]
    · rw [← h]; exact Int.emod_nonneg _ (by omega)
    · rw [← h]; exact Int.emod_lt_of_pos _ hp
  · rw [if_neg hg] at h
    exact absurd h (by simp)

/-- rug `significant_bits`: the bit length of a non-negative integer
(`0` for `0`), computed with fuel so that it reduces in the kernel. -/
def sig_bits_go : ℕ → ℕ → ℕ
  | 0, _ => 0
  | fuel + 1, n => if n = 0 then 0 else sig_bits_go fuel (n / 2) + 1

def sig_bits (n : ℕ) : ℕ := sig_bits_go n n

theorem sig_bits_go_le_iff : ∀ (fuel n k : ℕ), n ≤ fuel →
    (sig_bits_go fuel n ≤ k ↔ n < 2 ^ k) := by
  intro fuel
  induction fuel with
  | zero =>
    intro n k hn
    interval_cases n
    simp [sig_bits_go, Nat.pos_pow_of_pos, Nat.pos_pow_of_pos k (by norm_num : 0 < 2)]
  | succ f ih =>
    intro n k hn
    by_cases h : n = 0
    · subst h; simp [sig_bits_go, Nat.pos_pow_of_pos k (by norm_num : 0 < 2)]
    · simp only [sig_bits_go, h, if_neg, not_false_iff]
      cases k with
      | zero =>
        simp only [pow_zero, Nat.lt_one_iff]
        omega
      | succ k' =>
        have hrec := ih (n / 2) k' (by omega)
        rw [Nat.succ_le_succ_iff, hrec, pow_succ]
        rw [Nat.div_lt_iff_lt_mul (by norm_num : 0 < 2)]

theorem sig_bits_le_iff (n k : ℕ) : sig_bits n ≤ k ↔ n < 2 ^ k :=
  sig_bits_go_le_iff n n k le_rfl

theorem sig_bits_eq_iff (n k : ℕ) (hk : 0 < k) :
    sig_bits n = k ↔ 2 ^ (k - 1) ≤ n ∧ n < 2 ^ k := by
  constructor
  · intro h
    constructor
    · by_contra hc
      push_neg at hc
      have : sig_bits n ≤ k - 1 := (sig_bits_le_iff n (k - 1)).mpr hc
      omega
    · exact (sig_bits_le_iff n k).mp (le_of_eq h)
  · rintro ⟨h1, h2⟩
    have hub : sig_bits n ≤ k := (sig_bits_le_iff n k).mpr h2
    have hlb : ¬ sig_bits n ≤ k - 1 := by
      rw [sig_bits_le_iff]
      omega
    omega

/-! ### `zeka_crypto/src/lagrange.rs`

Coefficient lists are little-endian (index `i` holds the coefficient of
`x^i`), as in the Rust `Vec<Integer>`.  Out-of-range indices are read as
`0` (`getD`), matching the loops, which never touch them.  `rug`'s
`modulo` is the Euclidean remainder, i.e. `Int.emod` for a positive
modulus.
-/

/-- `poly_mul_mod` (lagrange.rs:69-79).  Cell `k` of the result
accumulates `poly1[i] * poly2[j]` over `i + j = k`, reducing mod `p` at
every step; index pairs outside the two vectors contribute `0`. -/
def poly_mul_mod (poly1 poly2 : List ℤ) (p : ℤ) : List ℤ :=
  (List.range (poly1.length + poly2.length - 1)).map fun k =>
    (List.range (k + 1)).foldl
      (fun acc i => (acc + poly1.getD i 0 * poly2.getD (k - i) 0) % p) 0

/-- `poly_add_mod` (lagrange.rs:81-102): cellwise `(a + b) % p`, the
shorter vector padded with `Integer::ZERO`. -/
def poly_add_mod (poly1 poly2 : List ℤ) (p : ℤ) : List ℤ :=
  (List.range (max poly1.length poly2.length)).map fun i =>
    (poly1.getD i 0 + poly2.getD i 0) % p

/-- The inner `j`-loop of `generate_poly` (lagrange.rs:16-30) for basis
index `i`: it builds the numerator polynomial `∏_{j≠i} (x - x_j)` and the
denominator `∏_{j≠i} (x_i - x_j)`, both reduced mod `p` as the source
does. -/
def lagrange_step (x_s : List ℤ) (p : ℤ) (k i : ℕ) : List ℤ × ℤ :=
  (List.range k).foldl
    (fun nd j =>
      if j = i then nd
      else
        (poly_mul_mod nd.1 [-(x_s.getD j 0), 1] p,
         nd.2 * ((x_s.getD i 0 - x_s.getD j 0) % p) % p))
    ([1], 1)

/-- `generate_poly` (lagrange.rs:4-52).  The source panics when the
denominator has no inverse (non-prime `p`); that unreachable branch is
modelled by `getD 0`.  The assertion `x_s.len() == y_s.len()` becomes a
hypothesis of the theorems. -/
def generate_poly (x_s y_s : List ℤ) (p : ℤ) : List ℤ :=
  (List.range x_s.length).foldl
    (fun result i =>
      let nd := lagrange_step x_s p x_s.length i
      let inv := (invert nd.2 p).getD 0
      let l_i := nd.1.map fun coef => coef * inv % p
      let basis := l_i.map fun coef => coef * y_s.getD i 0 % p
      poly_add_mod result basis p)
    (List.replicate x_s.length 0)

/-- `evaluate_poly_at_mod` (lagrange.rs:54-67): a length-1 vector returns
`poly[0]` verbatim (no reduction); otherwise the sum
`poly[0] + Σ_{i≥1} poly[i]·(x^i mod p)` reduced mod `p` at each step.
`pow_mod` is `x ^ i % p`. -/
def evaluate_poly_at_mod (poly : List ℤ) (x p : ℤ) : ℤ :=
  if poly.length = 1 then poly.getD 0 0
  else
    ((List.range poly.length).drop 1).foldl
      (fun result i => (result + poly.getD i 0 * (x ^ i % p)) % p)
      (poly.getD 0 0)

/-! ### `zeka_crypto/src/numbers.rs`

The bit-twiddling helpers only ever receive non-negative integers, so
they are embedded over `ℕ`, with `<<<`, `>>>`, `&&&` the Nat shifts and
bitwise and (which agree with rug's on non-negative operands).  Functions
whose Rust bodies `panic!` on bad input return `Option`.
-/

/-- `RugIntoBytes::to_bytes` (numbers.rs:8-21): little-endian minimal
byte encoding — push `val & 0xFF`, shift right 8, until zero.  The fuel
argument only bounds the recursion so that the kernel can evaluate it;
`to_bytes_go_fuel` shows any fuel `≥ v` gives the same list. -/
def to_bytes_go : ℕ → ℕ → List ℕ
  | 0, _ => []
  | fuel + 1, v => if v = 0 then [] else (v &&& 0xFF) :: to_bytes_go fuel (v >>> 8)

def to_bytes (v : ℕ) : List ℕ := to_bytes_go v v

/-- `get_eligible_bits_of_nth_size` (numbers.rs:68-81). -/
def get_eligible_bits_of_nth_size (n p : ℕ) : ℕ :=
  let eligible_bits := sig_bits p / n
  if eligible_bits * n = sig_bits p then
    let max_arbitrary_nth_mask := (2 ^ eligible_bits - 1) <<< (eligible_bits * (n - 1))
    if max_arbitrary_nth_mask &&& p < max_arbitrary_nth_mask then eligible_bits - 1
    else eligible_bits
  else eligible_bits

/-- `get_mth_mask_of_nth_size` (numbers.rs:83-96); the two `panic!`
branches become `none`. -/
def get_mth_mask_of_nth_size (m n p : ℕ) : Option ℕ :=
  let eligible_bits := get_eligible_bits_of_nth_size n p
  if eligible_bits = 0 then none
  else if m > n ∨ m = 0 then none
  else some ((2 ^ eligible_bits - 1) <<< (eligible_bits * (sig_bits p / eligible_bits - m)))

/-- `get_parts_of_one_nth_size::<N>` (numbers.rs:110-123): the `N` parts
of `x`, most significant first; `panic!` on zero eligible bits becomes
`none`. -/
def get_parts_of_one_nth_size (N x p : ℕ) : Option (List ℕ) :=
  let eligible_bits := get_eligible_bits_of_nth_size N p
  if eligible_bits = 0 then none
  else some ((List.range N).reverse.map
    fun i => (x >>> (eligible_bits * i)) &&& (2 ^ eligible_bits - 1))

/-- `pack_nth_parts_into_size` (numbers.rs:125-152): concatenate `n`
parts MSB-first, shifting `eligible_bits` after every part but the last;
the `panic!`s (wrong count, oversized part) become `none`. -/
def pack_nth_parts_into_size (parts : List ℕ) (n p : ℕ) : Option ℕ :=
  if parts.length ≠ n then none
  else
    let max_expected := get_eligible_bits_of_nth_size n p
    if parts.any (fun part => sig_bits part > max_expected) then none
    else some (parts.enum.foldl
      (fun packed ip =>
        if ip.1 < n - 1 then (packed + ip.2) <<< max_expected else packed + ip.2)
      0)

/-- `cantor_pairing_mod` (numbers.rs:154-158):
`(2⁻¹ · (a+b) · (a+b+1) + b) mod p`.  The source unwraps the inverse of 2
(panicking for even `p`); the unreachable branch is `getD 0`. -/
def cantor_pairing_mod (a b p : ℤ) : ℤ :=
  ((invert 2 p).getD 0 * (a + b) * (a + b + 1) + b) % p

/-! ### `zeka_crypto/src/consts.rs` -/

/-- `VULN_FIELD_MOD` (consts.rs:10-14), the L1 modulus. -/
def VULN_FIELD_MOD : ℕ := 98989898989898989898989898989898989898989898989898989898989898989898989898989898989898989898989898989898989898989898989898989898989898989898989898989898989898989

/-- `EXPR_FIELD_MOD` (consts.rs:17-21), the L2 modulus. -/
def EXPR_FIELD_MOD : ℕ := 79999999999999999999999999999999999999999999999999999999999999999999999999999

/-- `DFA_FIELD_MOD` (consts.rs:24-28), the L3 modulus. -/
def DFA_FIELD_MOD : ℕ := 79999999999999999999999999999999999999999999999999999999999999999999999999999

/-! ### Semantics of coefficient lists over `ZMod p`

`evalZ` reads a coefficient list as the polynomial function it denotes
over `𝔽_p`; the lemmas relate the mod-`p` integer computations above to
it. -/

noncomputable def evalZ (p : ℕ) (l : List ℤ) (x : ZMod p) : ZMod p :=
  ∑ i in Finset.range l.length, ((l.getD i 0 : ℤ) : ZMod p) * x ^ i

theorem intCast_emod_zmod (p : ℕ) (a : ℤ) :
    ((a % (p : ℤ) : ℤ) : ZMod p) = (a : ZMod p) := by
  exact_mod_cast ZMod.intCast_mod a p

theorem foldl_emod_eq (f : ℕ → ℤ) (q : ℤ) :
    ∀ (l : List ℕ) (a : ℤ),
      l.foldl (fun acc i => (acc + f i) % q) (a % q) = (a + (l.map f).sum) % q := by
  intro l
  induction l with
  | nil => intro a; simp
  | cons x xs ih =>
    intro a
    simp only [List.foldl_cons, List.map_cons, List.sum_cons]
    rw [Int.emod_add_emod, ih (a + f x)]
    ring_nf

theorem foldl_emod_of_ne_nil (f : ℕ → ℤ) (q : ℤ) (l : List ℕ) (hl : l ≠ []) (a : ℤ) :
    l.foldl (fun acc i => (acc + f i) % q) a = (a + (l.map f).sum) % q := by
  cases l with
  | nil => exact absurd rfl hl
  | cons x xs =>
    simp only [List.foldl_cons, List.map_cons, List.sum_cons]
    rw [foldl_emod_eq f q xs (a + f x)]
    ring_nf

theorem foldl_emod_zero (f : ℕ → ℤ) (q : ℤ) (l : List ℕ) :
    l.foldl (fun acc i => (acc + f i) % q) 0 = (l.map f).sum % q := by
  have h := foldl_emod_eq f q l 0
  rw [Int.zero_emod] at h
  simpa using h

theorem list_range_map_sum {M : Type} [AddCommMonoid M] (f : ℕ → M) :
    ∀ n : ℕ, ((List.range n).map f).sum = ∑ i in Finset.range n, f i := by
  intro n
  induction n with
  | zero => simp
  | succ m ih =>
    rw [List.range_succ, List.map_append, List.sum_append, Finset.sum_range_succ, ih]
    simp

theorem evalZ_eq_sum_range (p : ℕ) (l : List ℤ) (x : ZMod p) (N : ℕ) (h : l.length ≤ N) :
    evalZ p l x = ∑ i in Finset.range N, ((l.getD i 0 : ℤ) : ZMod p) * x ^ i := by
  unfold evalZ
  apply Finset.sum_subset
  · exact Finset.range_subset.mpr h
  · intro i _ hi
    rw [Finset.mem_range, not_lt] at hi
    rw [List.getD_eq_default _ _ hi]
    simp

theorem poly_add_mod_length (l1 l2 : List ℤ) (q : ℤ) :
    (poly_add_mod l1 l2 q).length = max l1.length l2.length := by
  simp [poly_add_mod]

theorem poly_add_mod_getD (l1 l2 : List ℤ) (q : ℤ) (k : ℕ)
    (h : k < max l1.length l2.length) :
    (poly_add_mod l1 l2 q).getD k 0 = (l1.getD k 0 + l2.getD k 0) % q := by
  rw [poly_add_mod, List.getD_eq_getElem _ _ (by simpa using h)]
  simp

theorem poly_mul_mod_length (l1 l2 : List ℤ) (q : ℤ) :
    (poly_mul_mod l1 l2 q).length = l1.length + l2.length - 1 := by
  simp [poly_mul_mod]

theorem poly_mul_mod_getD (l1 l2 : List ℤ) (q : ℤ) (k : ℕ)
    (h : k < l1.length + l2.length - 1) :
    (poly_mul_mod l1 l2 q).getD k 0
      = (∑ i in Finset.range (k + 1), l1.getD i 0 * l2.getD (k - i) 0) % q := by
  rw [poly_mul_mod, List.getD_eq_getElem _ _ (by simpa using h)]
  simp only [List.getElem_map, List.getElem_range]
  rw [foldl_emod_zero (fun i => l1.getD i 0 * l2.getD (k - i) 0) q (List.range (k + 1))]
  rw [list_range_map_sum]

theorem evalZ_poly_add_mod (p : ℕ) (l1 l2 : List ℤ) (x : ZMod p) :
    evalZ p (poly_add_mod l1 l2 (p : ℤ)) x = evalZ p l1 x + evalZ p l2 x := by
  set N := max l1.length l2.length with hN
  rw [evalZ_eq_sum_range p _ x N (by rw [poly_add_mod_length]),
      evalZ_eq_sum_range p l1 x N (le_max_left _ _),
      evalZ_eq_sum_range p l2 x N (le_max_right _ _), ← Finset.sum_add_distrib]
  apply Finset.sum_congr rfl
  intro k hk
  rw [Finset.mem_range] at hk
  rw [poly_add_mod_getD l1 l2 (p : ℤ) k (hN ▸ hk), intCast_emod_zmod]
  push_cast
  ring

theorem evalZ_map_mul_mod (p : ℕ) (l : List ℤ) (v : ℤ) (x : ZMod p) :
    evalZ p (l.map fun coef => coef * v % (p : ℤ)) x = evalZ p l x * (v : ZMod p) := by
  unfold evalZ
  rw [List.length_map, Finset.sum_mul]
  apply Finset.sum_congr rfl
  intro k hk
  rw [Finset.mem_range] at hk
  rw [List.getD_eq_getElem _ _ (by simpa using hk), List.getD_eq_getElem _ _ hk,
      List.getElem_map, intCast_emod_zmod]
  push_cast
  ring

theorem evalZ_poly_mul_linear (p : ℕ) (l : List ℤ) (c : ℤ) (x : ZMod p) :
    evalZ p (poly_mul_mod l [c, 1] (p : ℤ)) x = evalZ p l x * (x + (c : ZMod p)) := by
  have hlen : (poly_mul_mod l [c, 1] (p : ℤ)).length = l.length + 1 := by
    rw [poly_mul_mod_length]
    simp
  rw [evalZ_eq_sum_range p _ x (l.length + 1) (le_of_eq hlen)]
  have hcell : ∀ k < l.length + 1,
      (((poly_mul_mod l [c, 1] (p : ℤ)).getD k 0 : ℤ) : ZMod p)
        = ∑ i in Finset.range (k + 1),
            ((l.getD i 0 : ℤ) : ZMod p) * (([c, 1].getD (k - i) 0 : ℤ) : ZMod p) := by
    intro k hk
    rw [poly_mul_mod_getD l [c, 1] (p : ℤ) k (by simp; omega), intCast_emod_zmod]
    push_cast
    rfl
  calc ∑ k in Finset.range (l.length + 1),
        (((poly_mul_mod l [c, 1] (p : ℤ)).getD k 0 : ℤ) : ZMod p) * x ^ k
      = ∑ k in Finset.range (l.length + 1),
          (∑ i in Finset.range (k + 1),
            ((l.getD i 0 : ℤ) : ZMod p) * (([c, 1].getD (k - i) 0 : ℤ) : ZMod p)) * x ^ k := by
        apply Finset.sum_congr rfl
        intro k hk
        rw [Finset.mem_range] at hk
        rw [hcell k hk]
    _ = ∑ k in Finset.range (l.length + 1),
          (((l.getD k 0 : ℤ) : ZMod p) * (c : ZMod p)
            + (if 1 ≤ k then ((l.getD (k - 1) 0 : ℤ) : ZMod p) else 0)) * x ^ k := by
        apply Finset.sum_congr rfl
        intro k _
        congr 1
        cases k with
        | zero => simp
        | succ k' =>
          rw [Finset.sum_range_succ, Finset.sum_range_succ]
          have hz : ∑ i in Finset.range k',
              ((l.getD i 0 : ℤ) : ZMod p) * (([c, 1].getD (k' + 1 - i) 0 : ℤ) : ZMod p) = 0 := by
            apply Finset.sum_eq_zero
            intro i hi
            rw [Finset.mem_range] at hi
            rw [List.getD_eq_default _ _
              (show ([c, 1] : List ℤ).length ≤ k' + 1 - i by
                have h2 : ([c, 1] : List ℤ).length = 2 := rfl
                omega)]
            simp
          rw [hz]
          simp [List.getD]
          ring
    _ = evalZ p l x * (x + (c : ZMod p)) := by
        rw [Finset.sum_congr rfl (fun k _ => add_mul _ _ _), Finset.sum_add_distrib]
        have h1 : ∑ k in Finset.range (l.length + 1),
            ((l.getD k 0 : ℤ) : ZMod p) * (c : ZMod p) * x ^ k
              = evalZ p l x * (c : ZMod p) := by
          rw [evalZ_eq_sum_range p l x (l.length + 1) (by omega), Finset.sum_mul]
          apply Finset.sum_congr rfl
          intro k _
          ring
        have h2 : ∑ k in Finset.range (l.length + 1),
            (if 1 ≤ k then ((l.getD (k - 1) 0 : ℤ) : ZMod p) else 0) * x ^ k
              = evalZ p l x * x := by
          rw [Finset.sum_range_succ']
          simp only [Nat.le_add_left, if_true, Nat.add_sub_cancel, if_neg (by omega : ¬ 1 ≤ 0)]
          rw [evalZ_eq_sum_range p l x l.length le_rfl, Finset.sum_mul]
          simp only [zero_mul, add_zero]
          apply Finset.sum_congr rfl
          intro k _
          rw [pow_succ]
          ring
        rw [h1, h2]
        ring

/-- Invariant of the inner `j`-loop of `generate_poly`: folding over `js`
multiplies the numerator by `∏ (x - x_j)` and the denominator by
`∏ (x_i - x_j)` over the `j ≠ i` entries, keeps the numerator length in
step, and keeps the denominator reduced mod `p`. -/
theorem lagrange_step_foldl (p : ℕ) (x_s : List ℤ) (i : ℕ) :
    ∀ (js : List ℕ) (nd : List ℤ × ℤ),
      (js.foldl
        (fun nd j =>
          if j = i then nd
          else
            (poly_mul_mod nd.1 [-(x_s.getD j 0), 1] (p : ℤ),
             nd.2 * ((x_s.getD i 0 - x_s.getD j 0) % (p : ℤ)) % (p : ℤ))) nd).1.length
          = nd.1.length + (js.filter (fun j => decide (j ≠ i))).length
      ∧ (∀ x : ZMod p,
          evalZ p (js.foldl
            (fun nd j =>
              if j = i then nd
              else
                (poly_mul_mod nd.1 [-(x_s.getD j 0), 1] (p : ℤ),
                 nd.2 * ((x_s.getD i 0 - x_s.getD j 0) % (p : ℤ)) % (p : ℤ))) nd).1 x
            = evalZ p nd.1 x * ((js.filter (fun j => decide (j ≠ i))).map
                (fun j => x - ((x_s.getD j 0 : ℤ) : ZMod p))).prod)
      ∧ (((js.foldl
            (fun nd j =>
              if j = i then nd
              else
                (poly_mul_mod nd.1 [-(x_s.getD j 0), 1] (p : ℤ),
                 nd.2 * ((x_s.getD i 0 - x_s.getD j 0) % (p : ℤ)) % (p : ℤ))) nd).2 : ZMod p)
            = (nd.2 : ZMod p) * ((js.filter (fun j => decide (j ≠ i))).map
                (fun j => ((x_s.getD i 0 : ℤ) : ZMod p) - ((x_s.getD j 0 : ℤ) : ZMod p))).prod)
      ∧ ((0 < (p : ℤ) ∧ 0 ≤ nd.2 ∧ nd.2 < (p : ℤ)) →
          0 ≤ (js.foldl
            (fun nd j =>
              if j = i then nd
              else
                (poly_mul_mod nd.1 [-(x_s.getD j 0), 1] (p : ℤ),
                 nd.2 * ((x_s.getD i 0 - x_s.getD j 0) % (p : ℤ)) % (p : ℤ))) nd).2
          ∧ (js.foldl
            (fun nd j =>
              if j = i then nd
              else
                (poly_mul_mod nd.1 [-(x_s.getD j 0), 1] (p : ℤ),
                 nd.2 * ((x_s.getD i 0 - x_s.getD j 0) % (p : ℤ)) % (p : ℤ))) nd).2 < (p : ℤ)) := by
  intro js
  induction js with
  | nil =>
    intro nd
    refine ⟨by simp, by simp, by simp, ?_⟩
    rintro ⟨_, h1, h2⟩
    exact ⟨h1, h2⟩
  | cons j js ih =>
    intro nd
    by_cases hj : j = i
    · subst hj
      simpa [List.foldl_cons, List.filter_cons, if_pos rfl] using ih nd
    · have hstep := ih (poly_mul_mod nd.1 [-(x_s.getD j 0), 1] (p : ℤ),
          nd.2 * ((x_s.getD i 0 - x_s.getD j 0) % (p : ℤ)) % (p : ℤ))
      have hf : List.filter (fun j => decide (j ≠ i)) (j :: js)
          = j :: List.filter (fun j => decide (j ≠ i)) js := by
        simp [List.filter_cons, hj]
      simp only [List.foldl_cons, if_neg hj, hf, List.length_cons, List.map_cons,
        List.prod_cons]
      refine ⟨?_, ?_, ?_, ?_⟩
      · rw [hstep.1, poly_mul_mod_length]
        have h2 : ([-(x_s.getD j 0), 1] : List ℤ).length = 2 := rfl
        rw [h2]
        omega
      · intro x
        rw [hstep.2.1 x, evalZ_poly_mul_linear]
        push_cast
        ring
      · rw [hstep.2.2.1]
        have hc : ((nd.2 * ((x_s.getD i 0 - x_s.getD j 0) % (p : ℤ)) % (p : ℤ) : ℤ) : ZMod p)
            = (nd.2 : ZMod p)
              * (((x_s.getD i 0 : ℤ) : ZMod p) - ((x_s.getD j 0 : ℤ) : ZMod p)) := by
          rw [intCast_emod_zmod]
          push_cast [intCast_emod_zmod]
          ring
        rw [hc]
        ring
      · rintro ⟨hq, _, _⟩
        apply hstep.2.2.2
        exact ⟨hq, Int.emod_nonneg _ (by omega), Int.emod_lt_of_pos _ hq⟩

theorem filter_ne_range_length (i : ℕ) :
    ∀ k : ℕ, ((List.range k).filter (fun j => decide (j ≠ i))).length
      = if i < k then k - 1 else k := by
  intro k
  induction k with
  | zero => simp
  | succ m ih =>
    rw [List.range_succ, List.filter_append, List.length_append, ih]
    have hone : (List.filter (fun j => decide (j ≠ i)) [m]).length
        = if m = i then 0 else 1 := by
      by_cases hm : m = i <;> simp [List.filter_cons, hm]
    rw [hone]
    split_ifs <;> omega

theorem evaluate_poly_cast (p : ℕ) (l : List ℤ) (x : ℤ) (hl : 1 ≤ l.length) :
    ((evaluate_poly_at_mod l x (p : ℤ) : ℤ) : ZMod p) = evalZ p l (x : ZMod p) := by
  unfold evaluate_poly_at_mod
  by_cases h1 : l.length = 1
  · rw [if_pos h1]
    unfold evalZ
    rw [h1, Finset.sum_range_one]
    simp
  · rw [if_neg h1]
    obtain ⟨n, hn'⟩ : ∃ n, l.length = n + 1 := ⟨l.length - 1, by omega⟩
    have hn1 : 1 ≤ n := by omega
    rw [hn']
    have hdrop : (List.range (n + 1)).drop 1 = (List.range n).map Nat.succ := by
      rw [List.range_succ_eq_map]
      rfl
    rw [hdrop, foldl_emod_of_ne_nil _ _ _ (by
      simp only [ne_eq, List.map_eq_nil_iff, List.range_eq_nil]
      omega)]
    rw [intCast_emod_zmod]
    push_cast
    simp only [List.map_map]
    rw [list_range_map_sum]
    have hterm : ∀ i ∈ Finset.range n,
        (Int.cast ∘ (fun i => l.getD i 0 * (x ^ i % (p : ℤ))) ∘ Nat.succ) i
          = ((l.getD (i + 1) 0 : ℤ) : ZMod p) * ((x : ZMod p)) ^ (i + 1) := by
      intro i _
      simp only [Function.comp_apply, Nat.succ_eq_add_one]
      push_cast [intCast_emod_zmod]
      ring
    rw [Finset.sum_congr rfl hterm]
    unfold evalZ
    rw [hn', Finset.sum_range_succ']
    simp
    ring

theorem evaluate_poly_range (l : List ℤ) (x q : ℤ) (hl : 2 ≤ l.length) (hq : 0 < q) :
    0 ≤ evaluate_poly_at_mod l x q ∧ evaluate_poly_at_mod l x q < q := by
  unfold evaluate_poly_at_mod
  rw [if_neg (by omega)]
  rw [foldl_emod_of_ne_nil _ _ _ (by
    have : ((List.range l.length).drop 1).length = l.length - 1 := by
      simp
    intro hcon
    rw [hcon] at this
    simp at this
    omega)]
  exact ⟨Int.emod_nonneg _ (by omega), Int.emod_lt_of_pos _ hq⟩

theorem foldl_poly_add_eval (p : ℕ) (B : ℕ → List ℤ) :
    ∀ (js : List ℕ) (init : List ℤ),
      (∀ x : ZMod p,
        evalZ p (js.foldl (fun r i => poly_add_mod r (B i) (p : ℤ)) init) x
          = evalZ p init x + (js.map (fun i => evalZ p (B i) x)).sum)
      ∧ ((∀ i ∈ js, (B i).length ≤ init.length) →
          (js.foldl (fun r i => poly_add_mod r (B i) (p : ℤ)) init).length = init.length) := by
  intro js
  induction js with
  | nil => intro init; exact ⟨fun x => by simp, fun _ => rfl⟩
  | cons j js ih =>
    intro init
    constructor
    · intro x
      rw [List.foldl_cons, (ih (poly_add_mod init (B j) (p : ℤ))).1 x, evalZ_poly_add_mod]
      simp only [List.map_cons, List.sum_cons]
      ring
    · intro hlen
      rw [List.foldl_cons, (ih (poly_add_mod init (B j) (p : ℤ))).2 (by
        intro i hi
        rw [poly_add_mod_length]
        exact le_max_of_le_left (hlen i (List.mem_cons_of_mem _ hi)))]
      rw [poly_add_mod_length]
      have := hlen j (List.mem_cons_self _ _)
      omega

theorem evalZ_replicate_zero (p : ℕ) (k : ℕ) (x : ZMod p) :
    evalZ p (List.replicate k 0) x = 0 := by
  unfold evalZ
  apply Finset.sum_eq_zero
  intro i hi
  rw [Finset.mem_range, List.length_replicate] at *
  rw [List.getD_eq_getElem _ _ (by simpa using hi)]
  simp

theorem evalZ_one (p : ℕ) (x : ZMod p) : evalZ p [1] x = 1 := by
  unfold evalZ
  simp

theorem gcd_one_of_cast_ne_zero (p : ℕ) (hp : p.Prime) (d : ℤ) (hd : 0 ≤ d)
    (h : (d : ZMod p) ≠ 0) : Nat.gcd d.toNat p = 1 := by
  have hnd : ¬ p ∣ d.toNat := by
    intro hdvd
    apply h
    have : ((d.toNat : ℕ) : ZMod p) = 0 := (ZMod.natCast_zmod_eq_zero_iff_dvd _ _).mpr hdvd
    rwa [show ((d.toNat : ℕ) : ZMod p) = ((d.toNat : ℤ) : ZMod p) by push_cast; rfl,
      Int.toNat_of_nonneg hd] at this
  have := (Nat.Prime.coprime_iff_not_dvd hp).mpr hnd
  exact Nat.Coprime.gcd_eq_one (Nat.Coprime.symm this)

/-- Casting is injective on integers already reduced into `[0, p)`. -/
theorem intCast_inj_of_range (p : ℕ) (a b : ℤ) (ha0 : 0 ≤ a) (ha1 : a < (p : ℤ))
    (hb0 : 0 ≤ b) (hb1 : b < (p : ℤ)) (h : (a : ZMod p) = (b : ZMod p)) : a = b := by
  have hmod : a % (p : ℤ) = b % (p : ℤ) := (ZMod.intCast_eq_intCast_iff a b p).mp h
  rwa [Int.emod_eq_of_lt ha0 ha1, Int.emod_eq_of_lt hb0 hb1] at hmod

/-- `C1`: for a prime modulus, `k ≥ 1` pairwise-distinct `x` values and
arbitrary `y` values in `𝔽_p`, `generate_poly` returns `k` coefficients
(degree at most `k − 1`) and `evaluate_poly_at_mod` recovers each `y_i`
at the corresponding `x_i`. -/
theorem generate_poly_interpolates (p : ℕ) (hp : p.Prime) (x_s y_s : List ℤ)
    (hlen : y_s.length = x_s.length) (hk : 1 ≤ x_s.length)
    (hxlo : ∀ i, i < x_s.length → 0 ≤ x_s.getD i 0)
    (hxhi : ∀ i, i < x_s.length → x_s.getD i 0 < (p : ℤ))
    (hylo : ∀ i, i < y_s.length → 0 ≤ y_s.getD i 0)
    (hyhi : ∀ i, i < y_s.length → y_s.getD i 0 < (p : ℤ))
    (hdist : ∀ i j, i < x_s.length → j < x_s.length → i ≠ j →
      x_s.getD i 0 ≠ x_s.getD j 0) :
    (generate_poly x_s y_s (p : ℤ)).length = x_s.length
    ∧ ∀ m, m < x_s.length →
        evaluate_poly_at_mod (generate_poly x_s y_s (p : ℤ)) (x_s.getD m 0) (p : ℤ)
          = y_s.getD m 0 := by
  haveI : Fact p.Prime := ⟨hp⟩
  have hq2 : (2 : ℤ) ≤ (p : ℤ) := by exact_mod_cast hp.two_le
  have hinj := intCast_inj_of_range p
  -- the per-basis coefficient list, as `generate_poly`'s loop body builds it
  have hgen : generate_poly x_s y_s (p : ℤ)
      = (List.range x_s.length).foldl
          (fun result i => poly_add_mod result
            (((lagrange_step x_s (p : ℤ) x_s.length i).1.map fun coef =>
                coef * ((invert (lagrange_step x_s (p : ℤ) x_s.length i).2 (p : ℤ)).getD 0)
                  % (p : ℤ)).map fun coef => coef * y_s.getD i 0 % (p : ℤ)) (p : ℤ))
          (List.replicate x_s.length 0) := rfl
  have hstep : ∀ i, lagrange_step x_s (p : ℤ) x_s.length i
      = (List.range x_s.length).foldl
        (fun nd j =>
          if j = i then nd
          else
            (poly_mul_mod nd.1 [-(x_s.getD j 0), 1] (p : ℤ),
             nd.2 * ((x_s.getD i 0 - x_s.getD j 0) % (p : ℤ)) % (p : ℤ))) ([1], 1) :=
    fun _ => rfl
  -- facts about the step for each `i < k`
  have hstepFacts : ∀ i, i < x_s.length →
      (lagrange_step x_s (p : ℤ) x_s.length i).1.length = x_s.length
      ∧ (∀ x : ZMod p, evalZ p (lagrange_step x_s (p : ℤ) x_s.length i).1 x
          = (((List.range x_s.length).filter (fun j => decide (j ≠ i))).map
              (fun j => x - ((x_s.getD j 0 : ℤ) : ZMod p))).prod)
      ∧ (((lagrange_step x_s (p : ℤ) x_s.length i).2 : ZMod p)
          = (((List.range x_s.length).filter (fun j => decide (j ≠ i))).map
              (fun j => ((x_s.getD i 0 : ℤ) : ZMod p) - ((x_s.getD j 0 : ℤ) : ZMod p))).prod)
      ∧ 0 ≤ (lagrange_step x_s (p : ℤ) x_s.length i).2
      ∧ (lagrange_step x_s (p : ℤ) x_s.length i).2 < (p : ℤ) := by
    intro i hi
    have h := lagrange_step_foldl p x_s i (List.range x_s.length) ([1], 1)
    rw [← hstep i] at h
    have hflen : ((List.range x_s.length).filter (fun j => decide (j ≠ i))).length
        = x_s.length - 1 := by
      rw [filter_ne_range_length, if_pos hi]
    have hrange := h.2.2.2 ⟨by omega, by norm_num, by omega⟩
    refine ⟨?_, ?_, ?_, hrange.1, hrange.2⟩
    · rw [h.1, hflen]
      simp only [List.length_cons, List.length_nil]
      omega
    · intro x
      rw [h.2.1 x, evalZ_one, one_mul]
    · rw [h.2.2.1]
      push_cast
      ring
  -- the denominator's cast is a product of nonzero factors, hence invertible
  have hden : ∀ i, i < x_s.length →
      ((lagrange_step x_s (p : ℤ) x_s.length i).2 : ZMod p) ≠ 0 := by
    intro i hi
    rw [(hstepFacts i hi).2.2.1]
    apply List.prod_ne_zero
    intro hzero
    rw [List.mem_map] at hzero
    obtain ⟨j, hjmem, hj0⟩ := hzero
    rw [List.mem_filter, List.mem_range, decide_eq_true_eq] at hjmem
    have : ((x_s.getD i 0 : ℤ) : ZMod p) = ((x_s.getD j 0 : ℤ) : ZMod p) := by
      have := sub_eq_zero.mp hj0
      exact this
    have heq := hinj _ _ (hxlo i hi) (hxhi i hi) (hxlo j hjmem.1) (hxhi j hjmem.1) this
    exact hdist i j hi hjmem.1 (fun hij => hjmem.2 hij.symm) heq
  -- the inverse returned by `invert` really inverts the denominator mod p
  have hinv : ∀ i, i < x_s.length →
      ((lagrange_step x_s (p : ℤ) x_s.length i).2 : ZMod p)
        * (((invert (lagrange_step x_s (p : ℤ) x_s.length i).2 (p : ℤ)).getD 0 : ℤ) : ZMod p)
        = 1 := by
    intro i hi
    have hd0 := (hstepFacts i hi).2.2.2.1
    have hd1 := (hstepFacts i hi).2.2.2.2
    have hgcd : Nat.gcd (lagrange_step x_s (p : ℤ) x_s.length i).2.toNat ((p : ℤ)).toNat = 1 := by
      rw [Int.toNat_natCast]
      exact gcd_one_of_cast_ne_zero p hp _ hd0 (hden i hi)
    have hsome := invert_eq_some_of_gcd _ _ hgcd
    have hspec := invert_spec _ _ _ hd0 (by omega) hsome
    rw [hsome]
    simp only [Option.getD_some]
    have hcast : (((lagrange_step x_s (p : ℤ) x_s.length i).2
        * ((egcd (((p : ℤ)).toNat + 1) (lagrange_step x_s (p : ℤ) x_s.length i).2.toNat
            ((p : ℤ)).toNat).1 % (p : ℤ)) % (p : ℤ) : ℤ) : ZMod p)
        = ((1 % (p : ℤ) : ℤ) : ZMod p) := by
      rw [hspec.1]
    rw [intCast_emod_zmod, intCast_emod_zmod] at hcast
    push_cast at hcast
    rw [intCast_emod_zmod]
    exact hcast
  -- length of each basis list
  have hblen : ∀ i, i < x_s.length →
      (((lagrange_step x_s (p : ℤ) x_s.length i).1.map fun coef =>
          coef * ((invert (lagrange_step x_s (p : ℤ) x_s.length i).2 (p : ℤ)).getD 0)
            % (p : ℤ)).map fun coef => coef * y_s.getD i 0 % (p : ℤ)).length = x_s.length := by
    intro i hi
    rw [List.length_map, List.length_map, (hstepFacts i hi).1]
  have hfold := foldl_poly_add_eval p
    (fun i => ((lagrange_step x_s (p : ℤ) x_s.length i).1.map fun coef =>
        coef * ((invert (lagrange_step x_s (p : ℤ) x_s.length i).2 (p : ℤ)).getD 0)
          % (p : ℤ)).map fun coef => coef * y_s.getD i 0 % (p : ℤ))
    (List.range x_s.length) (List.replicate x_s.length 0)
  have hGlen : (generate_poly x_s y_s (p : ℤ)).length = x_s.length := by
    rw [hgen, hfold.2 (by
      intro i hi
      rw [List.mem_range] at hi
      rw [hblen i hi, List.length_replicate])]
    exact List.length_replicate _ _
  refine ⟨hGlen, ?_⟩
  intro m hm
  -- the evaluation over `ZMod p`
  have hevalG : ∀ x : ℤ, ((evaluate_poly_at_mod (generate_poly x_s y_s (p : ℤ)) x (p : ℤ) : ℤ)
      : ZMod p) = evalZ p (generate_poly x_s y_s (p : ℤ)) (x : ZMod p) := by
    intro x
    exact evaluate_poly_cast p _ x (by omega)
  have hsumG : evalZ p (generate_poly x_s y_s (p : ℤ)) ((x_s.getD m 0 : ℤ) : ZMod p)
      = ((y_s.getD m 0 : ℤ) : ZMod p) := by
    rw [hgen, hfold.1, evalZ_replicate_zero, zero_add, list_range_map_sum]
    rw [Finset.sum_eq_single m ?_ ?_]
    · -- the `i = m` term is `y_m`
      rw [evalZ_map_mul_mod, evalZ_map_mul_mod, (hstepFacts m hm).2.1]
      rw [← (hstepFacts m hm).2.2.1]
      rw [mul_assoc ((lagrange_step x_s (p : ℤ) x_s.length m).2 : ZMod p) _ _]
      rw [show (((lagrange_step x_s (p : ℤ) x_s.length m).2 : ℤ) : ZMod p)
        * ((((invert (lagrange_step x_s (p : ℤ) x_s.length m).2 (p : ℤ)).getD 0 : ℤ) : ZMod p)
          * ((y_s.getD m 0 : ℤ) : ZMod p))
        = (((lagrange_step x_s (p : ℤ) x_s.length m).2 : ℤ) : ZMod p)
          * (((invert (lagrange_step x_s (p : ℤ) x_s.length m).2 (p : ℤ)).getD 0 : ℤ) : ZMod p)
          * ((y_s.getD m 0 : ℤ) : ZMod p) by ring]
      rw [hinv m hm, one_mul]
    · -- off-diagonal terms vanish: the product has the zero factor `x_m - x_m`
      intro i hi hne
      rw [Finset.mem_range] at hi
      rw [evalZ_map_mul_mod, evalZ_map_mul_mod, (hstepFacts i hi).2.1]
      have hmem : (0 : ZMod p) ∈ ((List.range x_s.length).filter
          (fun j => decide (j ≠ i))).map
            (fun j => ((x_s.getD m 0 : ℤ) : ZMod p) - ((x_s.getD j 0 : ℤ) : ZMod p)) := by
        rw [List.mem_map]
        exact ⟨m, by
          rw [List.mem_filter, List.mem_range, decide_eq_true_eq]
          exact ⟨hm, fun h => hne h.symm⟩, by ring⟩
      rw [List.prod_eq_zero hmem]
      ring
    · intro hc
      exact absurd (Finset.mem_range.mpr hm) hc
  -- conclude over ℤ: both sides are reduced into [0, p)
  have hyr0 := hylo m (by omega)
  have hyr1 := hyhi m (by omega)
  by_cases hk1 : x_s.length = 1
  · -- one point: the evaluation returns the single coefficient verbatim
    have hm0 : m = 0 := by omega
    have hG1 : generate_poly x_s y_s (p : ℤ)
        = poly_add_mod (List.replicate x_s.length 0)
            (((lagrange_step x_s (p : ℤ) x_s.length 0).1.map fun coef =>
                coef * ((invert (lagrange_step x_s (p : ℤ) x_s.length 0).2 (p : ℤ)).getD 0)
                  % (p : ℤ)).map fun coef => coef * y_s.getD 0 0 % (p : ℤ)) (p : ℤ) := by
      rw [hgen, hk1]
      rfl
    have hcell : 0 ≤ (generate_poly x_s y_s (p : ℤ)).getD 0 0
        ∧ (generate_poly x_s y_s (p : ℤ)).getD 0 0 < (p : ℤ) := by
      rw [hG1, poly_add_mod_getD _ _ _ 0 (by
        rw [List.length_replicate]
        omega)]
      exact ⟨Int.emod_nonneg _ (by omega), Int.emod_lt_of_pos _ (by omega)⟩
    have heval1 : evaluate_poly_at_mod (generate_poly x_s y_s (p : ℤ)) (x_s.getD m 0) (p : ℤ)
        = (generate_poly x_s y_s (p : ℤ)).getD 0 0 := by
      unfold evaluate_poly_at_mod
      rw [if_pos (by rw [hGlen, hk1])]
    rw [heval1]
    apply hinj _ _ hcell.1 hcell.2 hyr0 hyr1
    have h1 := hevalG (x_s.getD m 0)
    rw [heval1] at h1
    rw [h1, hsumG]
  · have hk2 : 2 ≤ (generate_poly x_s y_s (p : ℤ)).length := by omega
    have hr := evaluate_poly_range _ (x_s.getD m 0) (p : ℤ) hk2 (by omega)
    apply hinj _ _ hr.1 hr.2 hyr0 hyr1
    rw [hevalG (x_s.getD m 0), hsumG]

/-- Witness for `C1` at `p = 5`, `x = [1, 2]`, `y = [3, 4]`. -/
theorem generate_poly_interpolates_witness :
    (generate_poly [1, 2] [3, 4] ((5 : ℕ) : ℤ)).length = ([1, 2] : List ℤ).length
    ∧ ∀ m, m < ([1, 2] : List ℤ).length →
        evaluate_poly_at_mod (generate_poly [1, 2] [3, 4] ((5 : ℕ) : ℤ))
            (([1, 2] : List ℤ).getD m 0) ((5 : ℕ) : ℤ)
          = ([3, 4] : List ℤ).getD m 0 :=
  generate_poly_interpolates 5 (by norm_num) [1, 2] [3, 4] rfl (by norm_num)
    (by decide) (by decide) (by decide) (by decide)
    (by
      intro i j hi hj hij
      simp only [List.length_cons, List.length_nil] at hi hj
      interval_cases i <;> interval_cases j <;> simp_all)

/-- `C10`: `evaluate_poly_at_mod` on a single-coefficient list returns
the coefficient verbatim, without reduction (so `[7]` at modulus `5`
yields `7 ≠ 7 % 5`), while any list of length at least two always comes
back fully reduced into `[0, p)`. -/
theorem evaluate_poly_at_mod_len_one_verbatim :
    (∀ (a x q : ℤ), evaluate_poly_at_mod [a] x q = a)
    ∧ (evaluate_poly_at_mod [7] 0 5 = 7 ∧ evaluate_poly_at_mod [7] 0 5 ≠ 7 % 5
        ∧ (5 : ℤ) ≤ evaluate_poly_at_mod [7] 0 5)
    ∧ (∀ (poly : List ℤ) (x q : ℤ), 2 ≤ poly.length → 0 < q →
        0 ≤ evaluate_poly_at_mod poly x q ∧ evaluate_poly_at_mod poly x q < q) := by
  refine ⟨?_, by decide, ?_⟩
  · intro a x q
    rfl
  · intro poly x q h2 hq
    exact evaluate_poly_range poly x q h2 hq

/-- Witness for `C10` on concrete inputs. -/
theorem evaluate_poly_at_mod_len_one_verbatim_witness :
    evaluate_poly_at_mod [2] 9 4 = 2
    ∧ (0 ≤ evaluate_poly_at_mod [1, 2] 3 5 ∧ evaluate_poly_at_mod [1, 2] 3 5 < 5) :=
  ⟨evaluate_poly_at_mod_len_one_verbatim.1 2 9 4,
    evaluate_poly_at_mod_len_one_verbatim.2.2 [1, 2] 3 5 (by norm_num) (by norm_num)⟩

/-! ### C2: packing / splitting round trip -/

theorem sig_bits_le_of_lt_pow (a e : ℕ) (h : a < 2 ^ e) : sig_bits a ≤ e :=
  (sig_bits_le_iff a e).mpr h

theorem mul_add_div_pow (m r e : ℕ) (hr : r < 2 ^ e) : (m * 2 ^ e + r) / 2 ^ e = m := by
  rw [Nat.mul_comm m (2 ^ e), Nat.mul_add_div (Nat.pos_pow_of_pos e (by norm_num))]
  rw [Nat.div_eq_of_lt hr, Nat.add_zero]

theorem mul_add_mod_pow (m r e : ℕ) (hr : r < 2 ^ e) : (m * 2 ^ e + r) % 2 ^ e = r := by
  rw [Nat.mul_comm m (2 ^ e), Nat.mul_add_mod, Nat.mod_eq_of_lt hr]

/-- `C2` (amended): for a modulus with at least one eligible bit per
quarter, splitting a packed 4-tuple returns the tuple unchanged.  The
original claim, quantified over every modulus, fails at `p = 1` where
`get_parts_of_one_nth_size` panics on zero eligible bits (see
`pack_split_roundtrip_cex`). -/
theorem pack_split_roundtrip (p a b c d : ℕ)
    (he : 1 ≤ get_eligible_bits_of_nth_size 4 p)
    (ha : a < 2 ^ get_eligible_bits_of_nth_size 4 p)
    (hb : b < 2 ^ get_eligible_bits_of_nth_size 4 p)
    (hc : c < 2 ^ get_eligible_bits_of_nth_size 4 p)
    (hd : d < 2 ^ get_eligible_bits_of_nth_size 4 p) :
    (pack_nth_parts_into_size [a, b, c, d] 4 p).bind
      (fun x => get_parts_of_one_nth_size 4 x p) = some [a, b, c, d] := by
  set e := get_eligible_bits_of_nth_size 4 p with he'
  have hany : (([a, b, c, d] : List ℕ).any fun part => decide (sig_bits part > e)) = false := by
    simp only [List.any_eq_false, decide_eq_true_eq]
    intro x hx
    simp only [List.mem_cons, List.not_mem_nil, or_false] at hx
    rcases hx with h | h | h | h <;> subst h <;>
      simpa using Nat.not_lt.mpr (sig_bits_le_of_lt_pow _ e (by assumption))
  have hpack : pack_nth_parts_into_size [a, b, c, d] 4 p
      = some ((((0 + a) <<< e + b) <<< e + c) <<< e + d) := by
    unfold pack_nth_parts_into_size
    rw [if_neg (by norm_num)]
    rw [← he']
    rw [if_neg (by rw [hany]; exact Bool.false_ne_true)]
    rfl
  rw [hpack, Option.some_bind]
  unfold get_parts_of_one_nth_size
  rw [← he', if_neg (by omega)]
  have hrange4 : (List.range 4).reverse = [3, 2, 1, 0] := rfl
  rw [hrange4]
  simp only [List.map_cons, List.map_nil, Nat.shiftLeft_eq, Nat.shiftRight_eq_div_pow,
    Nat.and_pow_two_sub_one_eq_mod, Option.some_inj, zero_add, List.cons.injEq, and_true]
  set V := ((a * 2 ^ e + b) * 2 ^ e + c) * 2 ^ e + d with hV
  have hE3 : (2 : ℕ) ^ (e * 3) = 2 ^ e * 2 ^ e * 2 ^ e := by
    rw [show e * 3 = e + e + e by ring, pow_add, pow_add]
  have hE2 : (2 : ℕ) ^ (e * 2) = 2 ^ e * 2 ^ e := by
    rw [show e * 2 = e + e by ring, pow_add]
  refine ⟨?_, ?_, ?_, ?_⟩
  · rw [hE3, ← Nat.div_div_eq_div_mul, ← Nat.div_div_eq_div_mul, hV,
      mul_add_div_pow _ _ _ hd, mul_add_div_pow _ _ _ hc, mul_add_div_pow _ _ _ hb,
      Nat.mod_eq_of_lt ha]
  · rw [hE2, ← Nat.div_div_eq_div_mul, hV,
      mul_add_div_pow _ _ _ hd, mul_add_div_pow _ _ _ hc, mul_add_mod_pow _ _ _ hb]
  · rw [mul_one, hV, mul_add_div_pow _ _ _ hd, mul_add_mod_pow _ _ _ hc]
  · rw [Nat.mul_zero, pow_zero, Nat.div_one, hV, mul_add_mod_pow _ _ _ hd]

/-- Counterexample to `C2` as stated: at modulus `p = 1` the eligible
width is `0`, the only admissible tuple is all zeros, and the splitter
refuses (the Rust code panics) instead of returning `[0, 0, 0, 0]`. -/
theorem pack_split_roundtrip_cex :
    (0 < 2 ^ get_eligible_bits_of_nth_size 4 1)
    ∧ (pack_nth_parts_into_size [0, 0, 0, 0] 4 1).bind
        (fun x => get_parts_of_one_nth_size 4 x 1) ≠ some [0, 0, 0, 0] := by
  decide

/-- Witness for `C2` at `p = 255`, tuple `(1, 0, 2, 3)`. -/
theorem pack_split_roundtrip_witness :
    (pack_nth_parts_into_size [1, 0, 2, 3] 4 255).bind
      (fun x => get_parts_of_one_nth_size 4 x 255) = some [1, 0, 2, 3] :=
  pack_split_roundtrip 255 1 0 2 3 (by decide) (by decide) (by decide) (by decide) (by decide)

/-! ### C6: Cantor pairing mod p -/

/-- Doubling the Nat-level Cantor value clears the division:
`2·(s(s+1)/2 + b) = s(s+1) + 2b`. -/
theorem two_mul_cantor_nat (s b : ℕ) :
    2 * (s * (s + 1) / 2 + b) = s * (s + 1) + 2 * b := by
  have hdvd : 2 ∣ s * (s + 1) := (Nat.even_mul_succ_self s).two_dvd
  rw [Nat.mul_add, Nat.mul_div_cancel' hdvd]

/-- The Nat-level Cantor pairing is injective. -/
theorem cantor_nat_injective (a b a' b' : ℕ)
    (h : (a + b) * (a + b + 1) / 2 + b = (a' + b') * (a' + b' + 1) / 2 + b') :
    a = a' ∧ b = b' := by
  have h2 : (a + b) * (a + b + 1) + 2 * b = (a' + b') * (a' + b' + 1) + 2 * b' := by
    have h0 : 2 * ((a + b) * (a + b + 1) / 2 + b)
        = 2 * ((a' + b') * (a' + b' + 1) / 2 + b') := by
      rw [h]
    rwa [two_mul_cantor_nat, two_mul_cantor_nat] at h0
  have hss : a + b = a' + b' := by
    by_contra hne
    rcases Nat.lt_or_ge (a + b) (a' + b') with hlt | hge
    · have hle : (a + b + 1) * (a + b + 2) ≤ (a' + b') * (a' + b' + 1) :=
        Nat.mul_le_mul hlt (by omega)
      have hexp : (a + b + 1) * (a + b + 2) = (a + b) * (a + b + 1) + 2 * (a + b) + 2 := by
        ring
      omega
    · have hlt : a' + b' < a + b := by omega
      have hle : (a' + b' + 1) * (a' + b' + 2) ≤ (a + b) * (a + b + 1) :=
        Nat.mul_le_mul hlt (by omega)
      have hexp : (a' + b' + 1) * (a' + b' + 2)
          = (a' + b') * (a' + b' + 1) + 2 * (a' + b') + 2 := by
        ring
      omega
  rw [hss] at h2
  omega

/-- `C6` (amended): over an odd prime `p`, `cantor_pairing_mod` is
injective on pairs whose unreduced Cantor value `(a+b)(a+b+1)/2 + b`
lies below `p`.  The original claim's bound `a, b < √p` is too weak: the
packed value can reach `≈ 2p` and wrap around, see
`cantor_pairing_mod_injective_cex`. -/
theorem cantor_pairing_mod_injective (p : ℕ) (hp : p.Prime) (hodd : 2 < p)
    (a b a' b' : ℕ)
    (hab : (a + b) * (a + b + 1) / 2 + b < p)
    (hab' : (a' + b') * (a' + b' + 1) / 2 + b' < p)
    (h : cantor_pairing_mod (a : ℤ) (b : ℤ) ((p : ℕ) : ℤ)
        = cantor_pairing_mod (a' : ℤ) (b' : ℤ) ((p : ℕ) : ℤ)) :
    a = a' ∧ b = b' := by
  haveI : Fact p.Prime := ⟨hp⟩
  -- the inverse of two really inverts 2 mod p
  have hgcd : Nat.gcd ((2 : ℤ)).toNat ((p : ℤ)).toNat = 1 := by
    rw [show ((2 : ℤ)).toNat = 2 by rfl, Int.toNat_natCast]
    exact Nat.Coprime.gcd_eq_one
      (Nat.Coprime.symm ((Nat.Prime.coprime_iff_not_dvd hp).mpr
        (fun hdvd => by
          have := Nat.le_of_dvd (by norm_num) hdvd
          omega)))
  have hsome := invert_eq_some_of_gcd 2 ((p : ℕ) : ℤ) hgcd
  have hspec := invert_spec 2 ((p : ℕ) : ℤ) _ (by norm_num)
    (by exact_mod_cast (by omega : 0 < p)) hsome
  set c : ℤ := (egcd ((((p : ℕ) : ℤ)).toNat + 1) ((2 : ℤ)).toNat (((p : ℕ) : ℤ)).toNat).1
    % ((p : ℕ) : ℤ) with hc
  have h2c : (2 : ZMod p) * ((c : ℤ) : ZMod p) = 1 := by
    have := congrArg (fun z : ℤ => ((z : ℤ) : ZMod p)) hspec.1
    simp only at this
    rw [intCast_emod_zmod, intCast_emod_zmod] at this
    push_cast at this
    exact this
  have hcancel : ∀ u v : ZMod p, 2 * u = 2 * v → u = v := by
    intro u v huv
    calc u = (2 * ((c : ℤ) : ZMod p)) * u := by rw [h2c, one_mul]
    _ = ((c : ℤ) : ZMod p) * (2 * u) := by ring
    _ = ((c : ℤ) : ZMod p) * (2 * v) := by rw [huv]
    _ = (2 * ((c : ℤ) : ZMod p)) * v := by ring
    _ = v := by rw [h2c, one_mul]
  -- cast of the mod-p pairing equals the cast of the Nat-level pairing
  have hcast : ∀ x y : ℕ,
      ((cantor_pairing_mod (x : ℤ) (y : ℤ) ((p : ℕ) : ℤ) : ℤ) : ZMod p)
        = (((x + y) * (x + y + 1) / 2 + y : ℕ) : ZMod p) := by
    intro x y
    apply hcancel
    have hR : (2 : ZMod p) * (((x + y) * (x + y + 1) / 2 + y : ℕ) : ZMod p)
        = ((x : ZMod p) + (y : ZMod p)) * ((x : ZMod p) + (y : ZMod p) + 1)
          + 2 * (y : ZMod p) := by
      have hz : ((2 * ((x + y) * (x + y + 1) / 2 + y) : ℕ) : ZMod p)
          = (((x + y) * (x + y + 1) + 2 * y : ℕ) : ZMod p) := by
        rw [two_mul_cantor_nat]
      push_cast at hz
      push_cast
      linear_combination hz
    rw [hR]
    unfold cantor_pairing_mod
    rw [hsome]
    simp only [Option.getD_some]
    rw [intCast_emod_zmod]
    push_cast
    calc (2 : ZMod p) * (((c : ℤ) : ZMod p) * ((x : ZMod p) + y) * ((x : ZMod p) + y + 1)
          + (y : ZMod p))
        = (2 * ((c : ℤ) : ZMod p)) * (((x : ZMod p) + y) * ((x : ZMod p) + y + 1))
          + 2 * (y : ZMod p) := by ring
      _ = ((x : ZMod p) + y) * ((x : ZMod p) + y + 1) + 2 * (y : ZMod p) := by
          rw [h2c, one_mul]
  have hπ : (((a + b) * (a + b + 1) / 2 + b : ℕ) : ZMod p)
      = (((a' + b') * (a' + b' + 1) / 2 + b' : ℕ) : ZMod p) := by
    rw [← hcast a b, ← hcast a' b', h]
  have hval := congrArg ZMod.val hπ
  rw [ZMod.val_cast_of_lt hab, ZMod.val_cast_of_lt hab'] at hval
  exact cantor_nat_injective a b a' b' hval

/-- Counterexample to `C6` as stated: for the prime `p = 101` all of
`10, 10, 2, 3` are below `√101`, yet `(10, 10)` and `(2, 3)` collide
under `cantor_pairing_mod` (both map to `18`). -/
theorem cantor_pairing_mod_injective_cex :
    Nat.Prime 101 ∧ 2 < 101
    ∧ 10 * 10 < 101 ∧ 2 * 2 < 101 ∧ 3 * 3 < 101
    ∧ cantor_pairing_mod (10 : ℤ) (10 : ℤ) (101 : ℤ)
        = cantor_pairing_mod (2 : ℤ) (3 : ℤ) (101 : ℤ)
    ∧ ¬((10, 10) = ((2, 3) : ℕ × ℕ)) := by
  refine ⟨by norm_num, by norm_num, by norm_num, by norm_num, by norm_num, by decide, by decide⟩

/-- Witness for `C6` at `p = 101`, pairs `(3, 4)` and `(3, 4)`. -/
theorem cantor_pairing_mod_injective_witness : (3 : ℕ) = 3 ∧ (4 : ℕ) = 4 :=
  cantor_pairing_mod_injective 101 (by norm_num) (by norm_num) 3 4 3 4
    (by norm_num) (by norm_num) rfl

/-! ### C3: AES-GCM tag byte round trip

The compiler (encoder.rs:570) stores the 16-byte tag as
`Integer::from_digits(tag, Order::Msf)`; the runtime (main.rs:294-300)
rebuilds the byte buffer as `to_bytes` (little-endian minimal), reversed,
truncated to 16, then `resize(16, 0)` (zero-padding at the tail). -/

/-- rug `Integer::from_digits(_, Order::Msf)`: most-significant-first
base-256 digits. -/
def from_digits_msf (bytes : List ℕ) : ℕ :=
  bytes.foldl (fun acc b => acc * 256 + b) 0

/-- The runtime tag reconstruction (main.rs:294-300): `to_bytes`,
`rev()`, `take(16)`, `resize(16, 0)`. -/
def reconstruct_tag (aes_gcm_tag : ℕ) : List ℕ :=
  let tag_buffer := ((to_bytes aes_gcm_tag).reverse).take 16
  tag_buffer ++ List.replicate (16 - tag_buffer.length) 0

theorem to_bytes_go_fuel : ∀ (f1 f2 v : ℕ), v ≤ f1 → v ≤ f2 →
    to_bytes_go f1 v = to_bytes_go f2 v := by
  intro f1
  induction f1 with
  | zero =>
    intro f2 v h1 _
    interval_cases v
    cases f2 <;> simp [to_bytes_go]
  | succ f ih =>
    intro f2 v h1 h2
    by_cases hv : v = 0
    · subst hv
      cases f2 <;> simp [to_bytes_go]
    · cases f2 with
      | zero => omega
      | succ f2' =>
        simp only [to_bytes_go, if_neg hv]
        have hlt : v >>> 8 ≤ f := by
          rw [Nat.shiftRight_eq_div_pow]
          have : v / 2 ^ 8 < v := Nat.div_lt_self (by omega) (by norm_num)
          omega
        have hlt2 : v >>> 8 ≤ f2' := by
          rw [Nat.shiftRight_eq_div_pow]
          have : v / 2 ^ 8 < v := Nat.div_lt_self (by omega) (by norm_num)
          omega
        rw [ih f2' (v >>> 8) hlt hlt2]

theorem to_bytes_cons (v : ℕ) (hv : v ≠ 0) :
    to_bytes v = (v % 256) :: to_bytes (v / 256) := by
  obtain ⟨w, hw⟩ : ∃ w, v = w + 1 := ⟨v - 1, by omega⟩
  unfold to_bytes
  rw [hw]
  simp only [to_bytes_go, if_neg (by omega : ¬ w + 1 = 0)]
  have hmask : (w + 1) &&& 0xFF = (w + 1) % 256 := by
    rw [show (0xFF : ℕ) = 2 ^ 8 - 1 by norm_num, Nat.and_pow_two_sub_one_eq_mod]
  have hshift : (w + 1) >>> 8 = (w + 1) / 256 := by
    rw [Nat.shiftRight_eq_div_pow]
  rw [hmask, hshift, to_bytes_go_fuel w ((w + 1) / 256) ((w + 1) / 256)
    (by have := Nat.div_lt_self (by omega : 0 < w + 1) (by norm_num : 1 < 256); omega) le_rfl]

theorem from_digits_msf_snoc (t : List ℕ) (b : ℕ) :
    from_digits_msf (t ++ [b]) = from_digits_msf t * 256 + b := by
  unfold from_digits_msf
  rw [List.foldl_append]
  rfl

theorem from_digits_msf_pos (t : List ℕ) (h : 0 < t.headD 0) : 0 < from_digits_msf t := by
  cases t with
  | nil => simp at h
  | cons x rest =>
    have hgen : ∀ (l : List ℕ) (acc : ℕ),
        acc ≤ l.foldl (fun acc b => acc * 256 + b) acc := by
      intro l
      induction l with
      | nil => intro acc; simp
      | cons y ys ih =>
        intro acc
        calc acc ≤ acc * 256 + y := by omega
        _ ≤ ys.foldl (fun acc b => acc * 256 + b) (acc * 256 + y) := ih _
        _ = (y :: ys).foldl (fun acc b => acc * 256 + b) acc := rfl
    have : x ≤ (x :: rest).foldl (fun acc b => acc * 256 + b) 0 := by
      have h0 : (x :: rest).foldl (fun acc b => acc * 256 + b) 0
          = rest.foldl (fun acc b => acc * 256 + b) x := by
        simp
      rw [h0]
      exact hgen rest x
    simp only [List.headD_cons] at h
    unfold from_digits_msf
    omega

theorem to_bytes_from_digits_msf (t : List ℕ) :
    (∀ x ∈ t, x < 256) → 0 < t.headD 0 → to_bytes (from_digits_msf t) = t.reverse := by
  induction t using List.reverseRecOn with
  | nil =>
    intro _ hhead
    simp at hhead
  | append_singleton t' b ih =>
    intro hbytes hhead
    have hb : b < 256 := hbytes b (by simp)
    rw [from_digits_msf_snoc]
    cases t' with
    | nil =>
      simp only [List.nil_append, List.headD_cons] at hhead
      rw [show from_digits_msf [] * 256 + b = b by simp [from_digits_msf]]
      rw [to_bytes_cons b (by omega), Nat.mod_eq_of_lt hb, Nat.div_eq_of_lt hb]
      rfl
    | cons h rest =>
      have hhead' : 0 < (h :: rest).headD 0 := by
        simpa using hhead
      have hpos := from_digits_msf_pos (h :: rest) hhead'
      have hV : from_digits_msf (h :: rest) * 256 + b ≠ 0 := by omega
      rw [to_bytes_cons _ hV, Nat.mul_comm (from_digits_msf (h :: rest)) 256,
        Nat.mul_add_mod, Nat.mod_eq_of_lt hb,
        Nat.mul_add_div (by norm_num : 0 < 256), Nat.div_eq_of_lt hb, Nat.add_zero,
        ih (fun x hx => hbytes x (by simp at hx ⊢; tauto)) hhead']
      simp

/-- `C3` (amended): the runtime reconstruction recovers the compiler's
16-byte tag exactly whenever the tag's first (most significant) byte is
nonzero.  The original claim, for every 16-byte tag, fails when the tag
begins with a zero byte: the minimal big-integer encoding drops it and
`resize` re-pads at the wrong end (see `tag_roundtrip_cex`). -/
theorem tag_roundtrip (t : List ℕ) (hlen : t.length = 16)
    (hbytes : ∀ x ∈ t, x < 256) (hhead : 0 < t.headD 0) :
    reconstruct_tag (from_digits_msf t) = t := by
  unfold reconstruct_tag
  rw [to_bytes_from_digits_msf t hbytes hhead, List.reverse_reverse]
  rw [List.take_of_length_le (by omega)]
  simp [hlen]

/-- Counterexample to `C3` as stated: the 16-byte tag
`00 01 00 … 00` comes back as `01 00 … 00` — the leading zero byte moves
to the back. -/
theorem tag_roundtrip_cex :
    ([0, 1, 0, 0, 0, 0, 0, 0, 0, 0, 0, 0, 0, 0, 0, 0] : List ℕ).length = 16
    ∧ (∀ x ∈ ([0, 1, 0, 0, 0, 0, 0, 0, 0, 0, 0, 0, 0, 0, 0, 0] : List ℕ), x < 256)
    ∧ reconstruct_tag
        (from_digits_msf [0, 1, 0, 0, 0, 0, 0, 0, 0, 0, 0, 0, 0, 0, 0, 0])
      ≠ [0, 1, 0, 0, 0, 0, 0, 0, 0, 0, 0, 0, 0, 0, 0, 0] := by
  refine ⟨rfl, by decide, by decide⟩

/-- Witness for `C3` on a tag with nonzero leading byte. -/
theorem tag_roundtrip_witness :
    reconstruct_tag
        (from_digits_msf [5, 0, 7, 0, 0, 0, 0, 255, 0, 0, 0, 0, 0, 0, 0, 9])
      = [5, 0, 7, 0, 0, 0, 0, 255, 0, 0, 0, 0, 0, 0, 0, 9] :=
  tag_roundtrip [5, 0, 7, 0, 0, 0, 0, 255, 0, 0, 0, 0, 0, 0, 0, 9] rfl
    (by decide) (by decide)

/-! ### `zeka_crypto/src/dfa.rs` -/

/-- `InputClass` (dfa.rs:17-21): a concrete byte or the end-of-input
marker. -/
inductive InputClass
  | Byte : ℕ → InputClass
  | Eoi : InputClass
deriving DecidableEq

/-- The `find` call of `walk_transitions` (dfa.rs:178-180 and 188-190):
the first transition out of `state` on input `inp`. -/
def find_transition (ts : List (ℤ × ℤ × InputClass)) (state : ℤ) (inp : InputClass) :
    Option (ℤ × ℤ × InputClass) :=
  ts.find? (fun t => decide (t.1 = state ∧ t.2.2 = inp))

/-- The byte loop of `walk_transitions` (dfa.rs:176-186): a byte with a
matching transition moves the state; a byte without one is skipped. -/
def walk_bytes (ts : List (ℤ × ℤ × InputClass)) (state : ℤ) (bytes : List ℕ) : ℤ :=
  bytes.foldl
    (fun st b =>
      match find_transition ts st (InputClass.Byte b) with
      | some t => t.2.1
      | none => st) state

/-- `walk_transitions` (dfa.rs:170-196): walk the bytes, apply the Eoi
transition if present, accept iff the final state is `stop`. -/
def walk_transitions (ts : List (ℤ × ℤ × InputClass)) (start stop : ℤ)
    (haystack : List ℕ) : Bool :=
  let state := walk_bytes ts start haystack
  let state :=
    match find_transition ts state InputClass.Eoi with
    | some t => t.2.1
    | none => state
  state = stop

/-- The subsequence of `bytes` for which a matching transition exists
along the walk (the bytes `walk_bytes` does not skip). -/
def matched_bytes (ts : List (ℤ × ℤ × InputClass)) (state : ℤ) : List ℕ → List ℕ
  | [] => []
  | b :: rest =>
    match find_transition ts state (InputClass.Byte b) with
    | some t => b :: matched_bytes ts t.2.1 rest
    | none => matched_bytes ts state rest

theorem walk_bytes_matched (ts : List (ℤ × ℤ × InputClass)) :
    ∀ (bytes : List ℕ) (st : ℤ),
      walk_bytes ts st bytes = walk_bytes ts st (matched_bytes ts st bytes) := by
  intro bytes
  induction bytes with
  | nil => intro st; rfl
  | cons b rest ih =>
    intro st
    unfold matched_bytes walk_bytes
    cases hf : find_transition ts st (InputClass.Byte b) with
    | some t =>
      simp only [List.foldl_cons, hf]
      exact ih t.2.1
    | none =>
      simp only [List.foldl_cons, hf]
      exact ih st

/-- `C9`: `walk_transitions` silently skips any byte with no transition
out of the current state — the state is left unchanged, the walk never
rejects — so the result depends only on the subsequence of bytes for
which a matching transition exists. -/
theorem walk_transitions_skips_unmatched :
    (∀ (ts : List (ℤ × ℤ × InputClass)) (st : ℤ) (b : ℕ) (rest : List ℕ),
      find_transition ts st (InputClass.Byte b) = none →
        walk_bytes ts st (b :: rest) = walk_bytes ts st rest)
    ∧ (∀ (ts : List (ℤ × ℤ × InputClass)) (start stop : ℤ) (s : List ℕ),
        walk_transitions ts start stop s
          = walk_transitions ts start stop (matched_bytes ts start s)) := by
  constructor
  · intro ts st b rest hnone
    unfold walk_bytes
    simp only [List.foldl_cons, hnone]
  · intro ts start stop s
    unfold walk_transitions
    rw [← walk_bytes_matched]

/-- Witness for `C9`: on an empty transition list every byte is skipped
and the walk over `[7, 8]` equals the walk over its matched subsequence
(the empty list). -/
theorem walk_transitions_skips_unmatched_witness :
    walk_bytes [] (35 : ℤ) [7, 9] = walk_bytes [] (35 : ℤ) [9]
    ∧ walk_transitions [] 35 35 [7, 9]
        = walk_transitions [] 35 35 (matched_bytes [] 35 [7, 9]) :=
  ⟨walk_transitions_skips_unmatched.1 [] 35 7 [9] rfl,
    walk_transitions_skips_unmatched.2 [] 35 35 [7, 9]⟩

/-- Model of the accepting-state extraction inside
`parse_class_transitions` (dfa.rs:63-109): `accepting_state` starts at
`0` and is overwritten by the state id of every parsed line that
contains `*`.  A parsed line is abstracted to `(state id, line contains
an asterisk)`.  The scan is total — the Rust function's signature
`(Integer, Integer)` has no error path at all. -/
def accepting_state_scan (lines : List (ℕ × Bool)) : ℕ :=
  lines.foldl (fun accepting_state l => if l.2 then l.1 else accepting_state) 0

theorem accepting_state_scan_foldl (lines : List (ℕ × Bool)) :
    ∀ acc : ℕ,
      lines.foldl (fun accepting_state l => if l.2 then l.1 else accepting_state) acc
        = ((lines.filter (fun l => l.2)).map (fun l => l.1)).getLastD acc := by
  induction lines with
  | nil => intro acc; rfl
  | cons l rest ih =>
    intro acc
    rw [List.foldl_cons, List.filter_cons]
    by_cases hl : l.2
    · simp only [hl, if_true, List.map_cons, List.getLastD_cons]
      exact ih l.1
    · simp only [hl, if_false, Bool.false_eq_true]
      exact ih acc

/-- `C4` (amended): the extractor never aborts on multiple accepting
states — it silently keeps the last starred line's state id (`0` when no
line is starred).  The claimed fail-fast behaviour does not exist: the
scan is a total function. -/
theorem accepting_state_scan_keeps_last (lines : List (ℕ × Bool)) :
    accepting_state_scan lines
      = ((lines.filter (fun l => l.2)).map (fun l => l.1)).getLastD 0 :=
  accepting_state_scan_foldl lines 0

/-- Counterexample to `C4` as stated: two accepting states `3` and `7`
do not make the extractor fail — it returns `7`, silently discarding
`3`. -/
theorem accepting_state_scan_keeps_last_cex :
    accepting_state_scan [(3, true), (7, true)] = 7 ∧ (3 : ℕ) ≠ 7 := by
  decide

/-! ### C8: oversize plaintext diagnostics (`zeka_config`) -/

/-- A compile-time diagnostic (checks.rs:29-34), reduced to its
`err_type` tag. -/
structure YamlError where
  err_type : String
deriving DecidableEq

/-- encoder.rs:414-415: `max_bytes = VULN_FIELD_MOD.significant_bits() / 8 - 8`. -/
def max_vuln_text_bytes : ℕ := sig_bits VULN_FIELD_MOD / 8 - 8

/-- The oversize guard of `parse_yaml_doc` (encoder.rs:416-427): when the
formatted plaintext exceeds the budget it pushes one diagnostic and
`continue`s (second component `true` = the rule is skipped, no record is
emitted for it). -/
def oversize_guard (vuln_text_len : ℕ) (errs : List YamlError) : List YamlError × Bool :=
  if vuln_text_len > max_vuln_text_bytes then
    (errs ++ [⟨"Invalid definition"⟩], true)
  else (errs, false)

/-- The tail of `parse_yaml_doc` (encoder.rs:526-531): any collected
diagnostic turns the whole parse into `Err`. -/
def parse_yaml_result (errs : List YamlError) : Except String Unit :=
  if errs.isEmpty then Except.ok () else Except.error "Errors found in YAML document."

/-- `zeka_config/src/main.rs:30-73`: the artifact is serialized and
written only inside the `if let Ok(..)` branch. -/
def compiler_writes_artifact (r : Except String Unit) : Bool :=
  match r with
  | .ok _ => true
  | .error _ => false

/-- `C8`: a plaintext longer than `bits(P_L1)/8 − 8 = 535/8 − 8 = 58`
bytes records a diagnostic, the parse then returns an error and the
compiler writes no artifact; a plaintext within the budget raises no
oversize diagnostic. -/
theorem oversize_plaintext_aborts :
    sig_bits VULN_FIELD_MOD = 535
    ∧ max_vuln_text_bytes = 58
    ∧ (∀ (len : ℕ) (errs : List YamlError), len > max_vuln_text_bytes →
        (oversize_guard len errs).1 = errs ++ [⟨"Invalid definition"⟩]
        ∧ (oversize_guard len errs).2 = true
        ∧ compiler_writes_artifact (parse_yaml_result (oversize_guard len errs).1) = false)
    ∧ (∀ (len : ℕ) (errs : List YamlError), len ≤ max_vuln_text_bytes →
        oversize_guard len errs = (errs, false))
    ∧ (∀ errs : List YamlError, errs ≠ [] →
        parse_yaml_result errs = Except.error "Errors found in YAML document."
        ∧ compiler_writes_artifact (parse_yaml_result errs) = false) := by
  have hsig : sig_bits VULN_FIELD_MOD = 535 := by
    set_option maxRecDepth 8000 in decide
  refine ⟨hsig, by rw [max_vuln_text_bytes, hsig], ?_, ?_, ?_⟩
  · intro len errs hlen
    unfold oversize_guard
    rw [if_pos hlen]
    refine ⟨rfl, rfl, ?_⟩
    unfold parse_yaml_result
    rw [if_neg (by simp)]
    rfl
  · intro len errs hlen
    unfold oversize_guard
    rw [if_neg (by omega)]
  · intro errs herrs
    unfold parse_yaml_result
    rw [if_neg (by simpa using herrs)]
    exact ⟨rfl, rfl⟩

/-- Witness for `C8`: a 59-byte plaintext is rejected end to end, a
58-byte one passes the guard. -/
theorem oversize_plaintext_aborts_witness :
    ((oversize_guard 59 []).1 = [⟨"Invalid definition"⟩]
      ∧ (oversize_guard 59 []).2 = true
      ∧ compiler_writes_artifact (parse_yaml_result (oversize_guard 59 []).1) = false)
    ∧ oversize_guard 58 [] = ([], false)
    ∧ parse_yaml_result [⟨"Invalid definition"⟩]
        = Except.error "Errors found in YAML document." :=
  ⟨by
    have h := oversize_plaintext_aborts.2.2.1 59 []
      (by rw [oversize_plaintext_aborts.2.1]; norm_num)
    simpa using h,
   oversize_plaintext_aborts.2.2.2.1 58 []
     (by rw [oversize_plaintext_aborts.2.1]),
   (oversize_plaintext_aborts.2.2.2.2 [⟨"Invalid definition"⟩] (by simp)).1⟩

/-! ### C5: `reduce_regex` (`zeka_config/src/checks.rs:249-321`)

`reduce_regex` drives three fixed patterns of the Rust `regex` crate
(leftmost-first semantics).  The embedding hand-compiles those fixed
patterns into explicit matchers over `List Char`:

* `leadingStripLen` — the leftmost-first (greedy, never backtracking,
  since nothing follows the group) match length of
  `^(\s*(\\s[\+\*\?]?|[ \t]+|[\[\(\\][^\]]+\][\+\*\?]?)*\s*)` at the
  start of the string (checks.rs:253-258);
* `trailingStripPos` — the leftmost start of a match of the same body
  anchored at `$` (a suffix decomposable into `\s* ALT* \s*`);
* `tokAltLen` — the preferred match of the tokenizer pattern
  `\\s\*|\\s\+|\\s|\\t\*|\\t\+|\\t|[ \t]+|\[[^\]]+\][\*\+]?|\s+`
  (checks.rs:261) at a position, `tokenize` the `find_iter` scan
  (checks.rs:264-282);
* `reduce_tokens` — the token-reduction loop (checks.rs:287-318), whose
  in-place `tokens.remove` steps become recursion on the token suffix.

Unicode classes (`\s`, `char::is_whitespace`) are restricted to their
ASCII members, which covers every string the theorems mention. -/

/-- The ASCII whitespace characters of `\s` / `char::is_whitespace`. -/
def isWs (c : Char) : Bool :=
  c = ' ' || c = '\t' || c = '\n' || c = Char.ofNat 11 || c = Char.ofNat 12 || c = '\r'

/-- Length of the maximal `\s*` run at the head. -/
def wsRun (s : List Char) : ℕ := (s.takeWhile isWs).length

/-- Length of the maximal `[ \t]+`-style run at the head. -/
def spaceTabRun (s : List Char) : ℕ :=
  (s.takeWhile (fun c => c = ' ' || c = '\t')).length

/-- `1` when the head is one of the quantifier characters `qs`. -/
def quantLen (s : List Char) (qs : List Char) : ℕ :=
  match s with
  | c :: _ => if c ∈ qs then 1 else 0
  | [] => 0

/-- Match length of `[^\]]+\]` plus an optional quantifier from `qs`,
counting the already-consumed opening character: `[^\]]+` runs to the
first `]` (it cannot skip one), which must exist and sit at index ≥ 1. -/
def bracketLen (rest : List Char) (qs : List Char) : Option ℕ :=
  let k := (rest.takeWhile (fun c => c ≠ ']')).length
  if 1 ≤ k ∧ k < rest.length then some (1 + k + 1 + quantLen (rest.drop (k + 1)) qs)
  else none

/-- Preferred match length of the strip patterns' alternation
`\\s[\+\*\?]?|[ \t]+|[\[\(\\][^\]]+\][\+\*\?]?`, alternatives in source
order. -/
def stripAltLen (s : List Char) : Option ℕ :=
  match s with
  | '\\' :: 's' :: rest => some (2 + quantLen rest ['+', '*', '?'])
  | _ =>
    if spaceTabRun s ≠ 0 then some (spaceTabRun s)
    else
      match s with
      | c :: rest =>
        if c = '[' || c = '(' || c = '\\' then bracketLen rest ['+', '*', '?']
        else none
      | [] => none

/-- Greedy `(ALT)*`: total length consumed by repeating `stripAltLen`. -/
def stripAltsLen : ℕ → List Char → ℕ
  | 0, _ => 0
  | fuel + 1, s =>
    match stripAltLen s with
    | some l => if l = 0 then 0 else l + stripAltsLen fuel (s.drop l)
    | none => 0

/-- Length removed by `leading_ws.replace` (checks.rs:258): greedy
`\s*`, then `(ALT)*`, then `\s*`; never backtracks because the pattern
ends with the group. -/
def leadingStripLen (s : List Char) : ℕ :=
  let k1 := wsRun s
  let s1 := s.drop k1
  let ka := stripAltsLen s1.length s1
  k1 + ka + wsRun (s1.drop ka)

/-- Every possible match length of the strip alternation at the head
(for the end-anchored pattern all parses matter, not just the preferred
one). -/
def altLens (s : List Char) : List ℕ :=
  (match s with
   | '\\' :: 's' :: rest => 2 :: (if quantLen rest ['+', '*', '?'] = 1 then [3] else [])
   | _ => [])
  ++ (List.range (spaceTabRun s)).map (· + 1)
  ++ (match s with
      | c :: rest =>
        if c = '[' || c = '(' || c = '\\' then
          match bracketLen rest [] with
          | some base =>
            base :: (if quantLen (rest.drop (base - 1)) ['+', '*', '?'] = 1
              then [base + 1] else [])
          | none => []
        else []
      | [] => [])

/-- `s ∈ ALT* \s*` (some decomposition exists). -/
def parseTail : ℕ → List Char → Bool
  | 0, s => s.all isWs
  | fuel + 1, s =>
    s.all isWs || (altLens s).any (fun l => decide (1 ≤ l) && parseTail fuel (s.drop l))

/-- `s ∈ \s* ALT* \s*`. -/
def parseX (s : List Char) : Bool :=
  (List.range (wsRun s + 1)).any (fun k => parseTail (s.drop k).length (s.drop k))

/-- Start of the leftmost match of `( \s* ALT* \s* )$`
(checks.rs:259): the first position whose suffix is fully decomposable;
position `length` (empty suffix) always is. -/
def trailingStripPos (s : List Char) : ℕ :=
  ((List.range (s.length + 1)).find? (fun p => parseX (s.drop p))).getD s.length

/-- Preferred match of the tokenizer alternation (checks.rs:261) at the
head of `s`, alternatives in source order. -/
def tokAltLen (s : List Char) : Option ℕ :=
  match s with
  | '\\' :: 's' :: '*' :: _ => some 3
  | '\\' :: 's' :: '+' :: _ => some 3
  | '\\' :: 's' :: _ => some 2
  | '\\' :: 't' :: '*' :: _ => some 3
  | '\\' :: 't' :: '+' :: _ => some 3
  | '\\' :: 't' :: _ => some 2
  | _ =>
    if spaceTabRun s ≠ 0 then some (spaceTabRun s)
    else
      match
        (match s with
         | '[' :: rest => bracketLen rest ['*', '+']
         | _ => none) with
      | some l => some l
      | none => if wsRun s ≠ 0 then some (wsRun s) else none

def REQ_MARK : List Char := String.toList "__ZEKA_REQ_WS__"

def OPT_MARK : List Char := String.toList "__ZEKA_OPT_WS__"

/-- The `find_iter` scan (checks.rs:264-282): literal chunks between
matches become tokens, each match becomes `OPT_MARK` when its text ends
in `*` and `REQ_MARK` otherwise. -/
def tokenize_go : ℕ → List Char → List Char → List (List Char)
  | 0, s, lit => if lit = [] ∧ s = [] then [] else [lit.reverse ++ s]
  | fuel + 1, s, lit =>
    match s with
    | [] => if lit = [] then [] else [lit.reverse]
    | c :: rest =>
      match tokAltLen (c :: rest) with
      | some l =>
        (if lit = [] then [] else [lit.reverse])
          ++ ((if ((c :: rest).take l).getLastD ' ' = '*' then OPT_MARK else REQ_MARK)
              :: tokenize_go fuel ((c :: rest).drop l) [])
      | none => tokenize_go fuel rest (c :: lit)

def tokenize (s : List Char) : List (List Char) := tokenize_go (s.length + 1) s []

/-- The reduction loop (checks.rs:287-318).  The source mutates the
token vector in place at a cursor `i`; elements before `i` are never
read again, so the loop is recursion on the suffix: removing `tokens[i+1]`
keeps `x`, removing `tokens[i]` keeps `y`, and the emitting arms advance
by two (or one, for arm five). -/
def reduce_tokens_go : ℕ → List (List Char) → List Char
  | 0, _ => []
  | fuel + 1, tokens =>
    match tokens with
    | [] => []
    | [x] => x
    | x :: y :: rest =>
      if x = REQ_MARK ∧ (y = OPT_MARK ∨ y = REQ_MARK) then reduce_tokens_go fuel (x :: rest)
      else if x = OPT_MARK ∧ (y = REQ_MARK ∨ y = OPT_MARK) then
        reduce_tokens_go fuel (y :: rest)
      else if x = REQ_MARK then ' ' :: (y ++ reduce_tokens_go fuel rest)
      else if x = OPT_MARK then '(' :: ' ' :: ')' :: '?' :: (y ++ reduce_tokens_go fuel rest)
      else if y = REQ_MARK ∨ y = OPT_MARK then x ++ reduce_tokens_go fuel (y :: rest)
      else x ++ (y ++ reduce_tokens_go fuel rest)

def reduce_tokens (tokens : List (List Char)) : List Char :=
  reduce_tokens_go tokens.length tokens

/-- Rust `str::trim` (ASCII members of the Unicode class). -/
def trimChars (s : List Char) : List Char :=
  ((s.dropWhile isWs).reverse.dropWhile isWs).reverse

/-- `reduce_regex` (checks.rs:249-321): trim, strip all leading `^` and
trailing `$` (`trim_start_matches`/`trim_end_matches` strip every
occurrence), strip the leading and trailing whitespace patterns,
tokenize, reduce, and re-anchor. -/
def reduce_regex (s : List Char) : List Char :=
  let r := trimChars s
  let r := r.dropWhile (fun c => c = '^')
  let r := (r.reverse.dropWhile (fun c => c = '$')).reverse
  let r := r.drop (leadingStripLen r)
  let r := r.take (trailingStripPos r)
  '^' :: (reduce_tokens (tokenize r) ++ ['$'])

/-- `C5` (amended): the worked example reduces to exactly
`^the right( )?answer has many whitespaces$`, and `reduce_regex` is
idempotent on that example.  Universal idempotence is false: see
`reduce_regex_worked_example_cex`. -/
theorem reduce_regex_worked_example :
    reduce_regex (String.toList
        "  \\s*  the[\\t ]*\\tright\\s*answer  has\\s+many\\s*\\s+whitespaces    ")
      = String.toList "^the right( )?answer has many whitespaces$"
    ∧ reduce_regex (String.toList "^the right( )?answer has many whitespaces$")
      = String.toList "^the right( )?answer has many whitespaces$" := by
  constructor
  · set_option maxRecDepth 8000 in decide
  · set_option maxRecDepth 8000 in decide

/-- Counterexample to `C5` as stated: on the three-character input
`\ta` (backslash, `t`, `a`) the first pass emits `^ a$` — the tokenizer
turns `\t` into a required-whitespace marker and the reducer prints it
as a literal space — and the second pass strips that space as leading
whitespace, giving `^a$ ≠ ^ a$`. -/
theorem reduce_regex_worked_example_cex :
    reduce_regex (reduce_regex (String.toList "\\ta"))
      ≠ reduce_regex (String.toList "\\ta") := by
  set_option maxRecDepth 8000 in decide

/-! ### C7: the engine's scoring tick (`zeka_engine/src/main.rs:145-436`)

The evaluator loop is embedded as a function of the persistent state
(`ident_eval_stack`, `saved_vars`, the previous scored-set hash), the
received event set, and the artifact container.  Hash containers become
insertion-ordered association lists; external library calls are
parameters: `decrypt` stands for SHA-256 + AES-256-GCM
(`decrypt_in_place_detached`, main.rs:347-383) and `hash` for
`DefaultHasher` (`hash_vec`, main.rs:44-48).  The `while` walk over the
`var_1` linked list takes explicit fuel (the Rust loop can cycle).
UTF-8 plaintexts stay byte lists (`String::from_utf8_unchecked`). -/

/-- `ZekaEventOrigin` (providers.rs). -/
inductive ZekaEventOrigin
  | Registry
  | Fanotify
  | Etw
deriving DecidableEq

/-- `ZekaEventType` (providers.rs). -/
inductive ZekaEventType
  | Write
  | Delete
  | Attribute
deriving DecidableEq

/-- `ZekaEventMetadata` (providers.rs). -/
structure ZekaEventMetadata where
  origin : ZekaEventOrigin
  event_type : ZekaEventType
deriving DecidableEq

/-- The fields of `ZekaConfigContainer` (encoder.rs:111-122) the
evaluator reads. -/
structure ZekaConfigContainer where
  l1 : List ℤ
  l2 : List ℤ
  l3 : List ℤ
  p_l1 : ℤ
  p_l2 : ℤ
  p_l3 : ℤ
  var_max : ℤ
  aead : List ℕ
deriving DecidableEq

/-- The evaluator's state that survives from one tick to the next
(main.rs:138-142): `ident_eval_stack`, `saved_vars` and the hash of the
previous scored set. -/
structure EngineState where
  ident_eval_stack : List (ℤ × ℤ × ℤ × ℤ)
  saved_vars : List (ℤ × List ℤ)
  old_hash : ℕ
deriving DecidableEq

/-- `HashSet::insert`-style insertion into an ordered list. -/
def set_insert {α : Type} [DecidableEq α] (s : List α) (v : α) : List α :=
  if v ∈ s then s else s ++ [v]

/-- `HashMap::get`. -/
def map_lookup (m : List (ℤ × List ℤ)) (k : ℤ) : Option (List ℤ) :=
  (m.find? (fun e => decide (e.1 = k))).map (fun e => e.2)

/-- `HashMap` entry replacement (insert-or-assign). -/
def map_set (m : List (ℤ × List ℤ)) (k : ℤ) (v : List ℤ) : List (ℤ × List ℤ) :=
  if (m.find? (fun e => decide (e.1 = k))).isSome then
    m.map (fun e => if e.1 = k then (k, v) else e)
  else m ++ [(k, v)]

/-- First-occurrence deduplication (`collect::<HashSet<_>>` on lines,
main.rs:250). -/
def dedup_first {α : Type} [DecidableEq α] (l : List α) : List α :=
  l.foldl (fun acc x => set_insert acc x) []

/-- Rust `str::lines`. -/
def rust_lines (s : String) : List String :=
  let parts := s.splitOn "\n"
  let parts := if parts.getLast? = some "" then parts.dropLast else parts
  parts.map (fun l => if l.endsWith "\r" then l.dropRight 1 else l)

/-- `ws.replace(line, " ")` with `ws = \s+` (main.rs:137, 251): only the
first whitespace run collapses to a single space. -/
def collapse_first_ws : List Char → List Char
  | [] => []
  | c :: rest =>
    if isWs c then ' ' :: rest.dropWhile isWs
    else c :: collapse_first_ws rest

/-- `set_bit(idx, false)` (main.rs:312). -/
def clear_bit (n : ℕ) (idx : ℕ) : ℕ :=
  if n.testBit idx then n - 2 ^ idx else n

/-- `path.as_bytes()` then `Integer::from_digits(_, Order::Msf)`
(main.rs:169); paths are ASCII so bytes coincide with char codes. -/
def path_to_int (path : String) : ℤ :=
  Int.ofNat (from_digits_msf (path.toList.map (fun c => c.toNat)))

/-- The per-line L3 walk (main.rs:252-269): each character steps the
state through `cantor`/`eval`, then the end-of-input evaluation. -/
def walk_line (c : ZekaConfigContainer) (start : ℤ) (line : List Char) : ℤ :=
  let s := line.foldl
    (fun st ch =>
      evaluate_poly_at_mod c.l3 (cantor_pairing_mod st (Int.ofNat ch.toNat) c.p_l3) c.p_l3)
    start
  evaluate_poly_at_mod c.l3 s c.p_l3

/-- Insert the L3 halting state of every distinct stripped line into
`saved_vars[var_ident]` (main.rs:250-280). -/
def process_lines (c : ZekaConfigContainer) (saved : List (ℤ × List ℤ)) (ident : ℤ)
    (start : ℤ) (lines : List String) : List (ℤ × List ℤ) :=
  lines.foldl
    (fun sv line =>
      let stripped := collapse_first_ws (trimChars line.toList)
      let halting := walk_line c start stripped
      map_set sv ident (set_insert ((map_lookup sv ident).getD [0]) halting))
    saved

/-- The `while !var_stack.is_empty()` loop (main.rs:175-281), with fuel
(the Rust loop does not terminate on a cyclic `next_var_ptr` chain).
`get_parts` panics are modelled by the `[0,0,0,0]` default, unreachable
for the compiled artifacts. -/
def var_loop (c : ZekaConfigContainer) (file_content : String) :
    ℕ → List ℤ → List (ℤ × ℤ × ℤ × ℤ) × List (ℤ × List ℤ) →
      List (ℤ × ℤ × ℤ × ℤ) × List (ℤ × List ℤ)
  | 0, _, st => st
  | _ + 1, [], st => st
  | fuel + 1, var_1 :: stack_rest, (ident_stack, saved) =>
    let parts := (get_parts_of_one_nth_size 4 var_1.toNat c.p_l1.toNat).getD [0, 0, 0, 0]
    let next_var_ptr := parts.getD 0 0
    let expr_1 := parts.getD 1 0
    let var_ident_ptr := parts.getD 2 0
    let check_dfa_start_ptr := parts.getD 3 0
    let stack1 :=
      if sig_bits next_var_ptr = sig_bits c.var_max.toNat then
        evaluate_poly_at_mod c.l1 (Int.ofNat next_var_ptr) c.p_l1 :: stack_rest
      else stack_rest
    let eparts := (get_parts_of_one_nth_size 4 expr_1 c.var_max.toNat).getD [0, 0, 0, 0]
    let ciphertext := evaluate_poly_at_mod c.l1 (Int.ofNat (eparts.getD 0 0)) c.p_l1
    let aes_gcm_tag := evaluate_poly_at_mod c.l1 (Int.ofNat (eparts.getD 1 0)) c.p_l1
    let next_test_ident := evaluate_poly_at_mod c.l2 (Int.ofNat (eparts.getD 2 0)) c.p_l2
    let expr_dfa_start := evaluate_poly_at_mod c.l2 (Int.ofNat (eparts.getD 3 0)) c.p_l2
    let ident_stack1 := set_insert ident_stack
      (ciphertext, aes_gcm_tag, expr_dfa_start, next_test_ident)
    let var_ident := evaluate_poly_at_mod c.l2 (Int.ofNat var_ident_ptr) c.p_l2
    let check_dfa_state := evaluate_poly_at_mod c.l3 (Int.ofNat check_dfa_start_ptr) c.p_l3
    let saved1 := map_set saved var_ident [0]
    let saved2 := process_lines c saved1 var_ident check_dfa_state
      (dedup_first (rust_lines file_content))
    var_loop c file_content fuel stack1 (ident_stack1, saved2)

/-- One event of the tick's event loop (main.rs:154-287): `Registry`
events are ignored; `Etw`/`Fanotify` events seed the L1 walk with the
path bytes, reading the file best-effort (`unwrap_or("")`). -/
def process_event (fuel : ℕ) (c : ZekaConfigContainer) (files : String → Option String)
    (st : EngineState) (ev : String × ZekaEventMetadata) : EngineState :=
  match ev.2.origin with
  | ZekaEventOrigin.Registry => st
  | _ =>
    let var0 := evaluate_poly_at_mod c.l1 (path_to_int ev.1) c.p_l1
    let file_content := (files ev.1).getD ""
    let r := var_loop c file_content fuel [var0] (st.ident_eval_stack, st.saved_vars)
    { st with ident_eval_stack := r.1, saved_vars := r.2 }

/-- The ident linked-list unroll (main.rs:307-326), with fuel: top bit
set means another ident follows via an L2 evaluation. -/
def unroll_idents (c : ZekaConfigContainer) (saved : List (ℤ × List ℤ)) :
    ℕ → ℤ → List (List ℤ)
  | 0, _ => []
  | fuel + 1, ident =>
    if sig_bits ident.toNat = sig_bits c.p_l2.toNat then
      let next_ident := Int.ofNat (clear_bit ident.toNat (sig_bits ident.toNat - 1))
      ((map_lookup saved next_ident).getD [0])
        :: unroll_idents c saved fuel (evaluate_poly_at_mod c.l2 ident c.p_l2)
    else [(map_lookup saved ident).getD [0]]

/-- `multi_cartesian_product` (main.rs:333-337). -/
def cartesian : List (List ℤ) → List (List ℤ)
  | [] => [[]]
  | l :: rest => (l.map (fun x => (cartesian rest).map (fun t => x :: t))).flatten

/-- Byte-lexicographic order on byte lists (Rust `String` ordering). -/
def lex_le : List ℕ → List ℕ → Bool
  | [], _ => true
  | _ :: _, [] => false
  | a :: as', b :: bs =>
    if a < b then true else if b < a then false else lex_le as' bs

def insort (x : List ℕ) : List (List ℕ) → List (List ℕ)
  | [] => [x]
  | y :: rest => if lex_le x y then x :: y :: rest else y :: insort x rest

/-- `scored_vulns.sort()` (main.rs:386): the repeated in-loop sorts are
equivalent to one final sort of the collected plaintexts. -/
def sort_scored (l : List (List ℕ)) : List (List ℕ) :=
  l.foldl (fun acc x => insort x acc) []

/-- The expression-DFA evaluation and decryption pass
(main.rs:290-389): for every saved tuple, unroll the ident chain, walk
the expression DFA over every binding combination, and keep the
plaintexts `decrypt` accepts.  `decrypt state plain_buffer tag_buffer
aead` abstracts `Sha256::digest(state.to_bytes())` plus
`Aes256Gcm::decrypt_in_place_detached` with the zero nonce. -/
def score_pass (decrypt : ℤ → List ℕ → List ℕ → List ℕ → Option (List ℕ))
    (c : ZekaConfigContainer) (fuel : ℕ)
    (ident_stack : List (ℤ × ℤ × ℤ × ℤ)) (saved : List (ℤ × List ℤ)) : List (List ℕ) :=
  sort_scored (ident_stack.foldl
    (fun acc t =>
      let ciphertext := t.1
      let aes_gcm_tag := t.2.1
      let expr_dfa_state := t.2.2.1
      let ident := t.2.2.2
      let tag_buffer := reconstruct_tag aes_gcm_tag.toNat
      let plain_buffer := (to_bytes ciphertext.toNat).reverse
      let expr_dfa_stack := unroll_idents c saved fuel ident
      (cartesian expr_dfa_stack).foldl
        (fun acc2 ident_vals =>
          let state := ident_vals.foldl
            (fun st v =>
              evaluate_poly_at_mod c.l2 (cantor_pairing_mod st v c.p_l2) c.p_l2)
            expr_dfa_state
          match decrypt state plain_buffer tag_buffer c.aead with
          | some plain => acc2 ++ [plain]
          | none => acc2)
        acc)
    [])

/-- The result of one scoring tick: the new persistent state, the
scored set, whether the report was rendered (main.rs:416-419 renders
unconditionally) and whether the user notification fired
(main.rs:421-436, only on a hash change). -/
structure TickResult where
  state : EngineState
  scored : List (List ℕ)
  rendered : Bool
  notified : Bool
deriving DecidableEq

/-- One full scoring tick (main.rs:145-436) on a received event set. -/
def tick (decrypt : ℤ → List ℕ → List ℕ → List ℕ → Option (List ℕ))
    (hash : List (List ℕ) → ℕ) (c : ZekaConfigContainer) (files : String → Option String)
    (fuel : ℕ) (st : EngineState) (events : List (String × ZekaEventMetadata)) :
    TickResult :=
  let st1 := events.foldl (process_event fuel c files) st
  let scored := score_pass decrypt c fuel st1.ident_eval_stack st1.saved_vars
  let new_hash := hash scored
  let notified := decide (new_hash ≠ st1.old_hash)
  { state := { st1 with old_hash := if new_hash ≠ st1.old_hash then new_hash else st1.old_hash },
    scored := scored,
    rendered := true,
    notified := notified }

/-- `C7` (amended): a tick whose received event set is empty leaves the
persistent state untouched and reproduces the previous tick's scored
set exactly — its hash is unchanged and no notification fires.  (The
report, however, is re-rendered every tick, which is why the claim's
"no re-render" part fails: see `tick_empty_events_idempotent_cex`.) -/
theorem tick_empty_events_idempotent
    (decrypt : ℤ → List ℕ → List ℕ → List ℕ → Option (List ℕ))
    (hash : List (List ℕ) → ℕ) (c : ZekaConfigContainer)
    (files : String → Option String) (fuel : ℕ) (st : EngineState)
    (events : List (String × ZekaEventMetadata)) :
    (tick decrypt hash c files fuel
        (tick decrypt hash c files fuel st events).state []).scored
      = (tick decrypt hash c files fuel st events).scored
    ∧ (tick decrypt hash c files fuel
        (tick decrypt hash c files fuel st events).state []).notified = false
    ∧ (tick decrypt hash c files fuel
        (tick decrypt hash c files fuel st events).state []).state
      = (tick decrypt hash c files fuel st events).state := by
  unfold tick
  simp only [List.foldl_nil]
  set A := events.foldl (process_event fuel c files) st with hA
  by_cases h : hash (score_pass decrypt c fuel A.ident_eval_stack A.saved_vars) = A.old_hash
  · simp [h]
  · simp [h]

/-- Counterexample to `C7` as stated: the report is re-rendered on
every tick — `main.rs:416-419` calls `tmpl.render` and writes
`report.html` unconditionally — including a tick with an empty event
set and an unchanged scored set. -/
theorem tick_empty_events_idempotent_cex :
    (tick (fun _ _ _ _ => none) (fun _ => 0)
      ⟨[], [], [], 1, 1, 1, 1, []⟩ (fun _ => none) 0 ⟨[], [], 0⟩ []).rendered = true
    ∧ (tick (fun _ _ _ _ => none) (fun _ => 0)
        ⟨[], [], [], 1, 1, 1, 1, []⟩ (fun _ => none) 0 ⟨[], [], 0⟩ []).notified = false := by
  constructor
  · rfl
  · rfl

end Zeka
